import Mathlib

/-!
Verification of the section-extraction and chunking core of a research-paper
RAG pipeline (`src/services/document_processor.py`).

Python strings are modelled as `List Char`; PyMuPDF layout records (span,
line, block, page) as nested lists; font sizes as rationals.  Every
definition mirrors the corresponding Python function; spec-side predicates
used only to state claims are prefixed `spec`.
-/

set_option maxRecDepth 8000

namespace DocProc

/-- Characters Python's `str.strip()` / `\s` treat as whitespace (ASCII). -/
def pyWs (c : Char) : Bool :=
  c = ' ' || c = '\t' || c = '\n' || c = '\r' || c = '\x0b' || c = '\x0c'

/-- Python `str.lower()` restricted to the ASCII range used by the pipeline. -/
def lowerStr (s : List Char) : List Char := s.map Char.toLower

/-- `pattern.isPrefixOf s` for char lists, by explicit recursion. -/
def begins : List Char → List Char → Bool
  | [], _ => true
  | _ :: _, [] => false
  | p :: ps, c :: cs => p = c && begins ps cs

/-- Python `pattern in s` (substring containment). -/
def hasSub (pat : List Char) : List Char → Bool
  | [] => begins pat []
  | c :: cs => begins pat (c :: cs) || hasSub pat cs

/-- Python `s.lstrip(chars)`. -/
def lstripChars (chars : List Char) (s : List Char) : List Char :=
  s.dropWhile (fun c => chars.contains c)

/-- Python `s.lstrip()` (leading whitespace). -/
def lstripWs (s : List Char) : List Char := s.dropWhile pyWs

/-- Python `s.strip()` (both ends). -/
def stripWs (s : List Char) : List Char :=
  ((s.dropWhile pyWs).reverse.dropWhile pyWs).reverse

/-- Python `s[-n:]` for `n > 0`: the trailing `n` characters. -/
def takeRight (n : Nat) (s : List Char) : List Char := s.drop (s.length - n)

/-- Python `s.split()`, fuel-based so that it evaluates in the kernel
(`fuel ≥ length` always holds at the call site). -/
def splitWsRunsF : Nat → List Char → List (List Char)
  | 0, _ => []
  | _, [] => []
  | fuel + 1, c :: cs =>
    if pyWs c then splitWsRunsF fuel cs
    else
      let w := (c :: cs).takeWhile (fun d => !pyWs d)
      w :: splitWsRunsF fuel ((c :: cs).dropWhile (fun d => !pyWs d))

/-- Python `s.split()`: maximal non-whitespace runs, no empties. -/
def splitWsRuns (s : List Char) : List (List Char) :=
  splitWsRunsF s.length s

/-- Python `s.count(ch)`. -/
def countCh (ch : Char) (s : List Char) : Nat := s.countP (fun c => c = ch)

/-- Python's `string.punctuation`. -/
def pyPunct : List Char :=
  ("!\"#$%&'()*+,-./:;<=>?@[\\]^_`\x7b|\x7d~").toList

/-- The separator characters accepted after an alias in
`_detect_header_with_content` (and stripped by `lstrip(':- \t.')`). -/
def sepChars : List Char := [':', '-', ' ', '\t', '.']

end DocProc

namespace DocProc

/-- `self.section_aliases`: canonical section name → ordered alias variants,
in Python dict insertion order, exactly as declared in `__init__`. -/
def section_aliases : List (List Char × List (List Char)) :=
  [ ("abstract".toList,
      [ "abstract".toList, "Abstract".toList, "ABSTRACT".toList,
        "summary".toList, "executive summary".toList ]),
    ("introduction".toList,
      [ "introduction".toList, "Introduction".toList, "INTRODUCTION".toList,
        "1. introduction".toList, "1 introduction".toList ]),
    ("methodology".toList,
      [ "methodology".toList, "METHODOLOGY".toList, "methods".toList,
        "materials and methods".toList, "research methodology".toList,
        "Research Methodology".toList, "research methods".toList,
        "experimental setup".toList, "approach".toList, "method".toList,
        "2. research methodology".toList, "2 research methodology".toList,
        "2. methodology".toList, "2 methodology".toList ]),
    ("results".toList,
      [ "Results".toList, "results and discussion".toList, "findings".toList,
        "analysis".toList, "outcomes".toList, "3. results".toList,
        "3 results".toList, "4. results".toList, "4 results".toList ]),
    ("conclusions".toList,
      [ "discussion and conclusions".toList, "conclusions".toList,
        "conclusion".toList, "conclusion and future work".toList,
        "summary".toList, "concluding remarks".toList, "future work".toList,
        "discussion".toList, "5. conclusion".toList, "5 conclusion".toList,
        "6. conclusion".toList, "6 conclusion".toList ]),
    ("references".toList,
      [ "references".toList, "bibliography".toList, "acknowledgment".toList,
        "acknowledgement".toList, "works cited".toList ]) ]

/-- `self._skip_patterns`: substrings that disqualify a line from being a
header. -/
def skip_patterns : List (List Char) :=
  [ "doi".toList, "http".toList, "@".toList, "received".toList,
    "revised".toList, "accepted".toList, "published".toList,
    "license".toList, "correspondence".toList, "copyright".toList ]

/-- `any(skip in lower for skip in self._skip_patterns)`. -/
def hasSkipToken (lower : List Char) : Bool :=
  skip_patterns.any (fun p => hasSub p lower)

/-- Case 1 of `_detect_header_with_content` for one variant: the lowercase
line starts with the lowercase variant and the next character (which must
exist) is `:`, `-`, `.`, space or tab; returns the remaining text
`line_text[after_pos:].lstrip(':- \t.')`. -/
def case1 (variant : List Char) (line_text : List Char) : Option (List Char) :=
  if begins (lowerStr variant) (lowerStr line_text) then
    let after_pos := variant.length
    if after_pos < line_text.length then
      let next_char := (line_text.drop after_pos).take 1
      if next_char = [':'] || next_char = ['-'] || next_char = ['.'] ||
         next_char = [' '] || next_char = ['\t'] then
        some (lstripChars sepChars (line_text.drop after_pos))
      else none
    else none
  else none

/-- Parser for the regex `^\s*(\d+(\.\d+)*)\.?\s+` prefix: returns the index
just after the consumed prefix, or `none`.  The regex's greedy matching never
backtracks usefully here (digits cannot begin `\.` or `\s`), so the greedy
parse is exact. -/
def numGroups : Nat → Nat → List Char → Nat × List Char
  | 0, acc, r => (acc, r)
  | fuel + 1, acc, r =>
    match r with
    | '.' :: d :: rest =>
      if d.isDigit then
        let more := (d :: rest).takeWhile Char.isDigit
        numGroups fuel (acc + 1 + more.length) ((d :: rest).drop more.length)
      else (acc, '.' :: d :: rest)
    | _ => (acc, r)

def numPrefixEnd (l : List Char) : Option Nat :=
  let ws := l.takeWhile pyWs
  let l1 := l.drop ws.length
  let ds := l1.takeWhile Char.isDigit
  if ds.isEmpty then none
  else
    let (glen, r1) := numGroups l.length 0 (l1.drop ds.length)
    let base := ws.length + ds.length + glen
    match r1 with
    | '.' :: r2 =>
      let wsp := r2.takeWhile pyWs
      if wsp.isEmpty then none else some (base + 1 + wsp.length)
    | _ =>
      let wsp := r1.takeWhile pyWs
      if wsp.isEmpty then none else some (base + wsp.length)

/-- Case 2 of `_detect_header_with_content` for one variant: the regex
`^\s*(\d+(\.\d+)*)\.?\s+<variant>` against the lowercase line; returns
`line_text[match.end():].lstrip(':- \t.')`. -/
def case2 (variant : List Char) (line_text : List Char) : Option (List Char) :=
  match numPrefixEnd (lowerStr line_text) with
  | none => none
  | some i =>
    if begins (lowerStr variant) ((lowerStr line_text).drop i) then
      some (lstripChars sepChars (line_text.drop (i + variant.length)))
    else none

/-- The inner loop of `_detect_header_with_content` over one canonical
section's variants: first variant whose case 1 or case 2 matches wins. -/
def scanVariants (canonical : List Char) (variants : List (List Char))
    (line_text : List Char) : Option (List Char × List Char) :=
  match variants with
  | [] => none
  | v :: rest =>
    match case1 v line_text with
    | some r => some (canonical, r)
    | none =>
      match case2 v line_text with
      | some r => some (canonical, r)
      | none => scanVariants canonical rest line_text

/-- The outer loop of `_detect_header_with_content` over the alias table. -/
def scanTable (table : List (List Char × List (List Char)))
    (line_text : List Char) : Option (List Char × List Char) :=
  match table with
  | [] => none
  | (c, vs) :: rest =>
    match scanVariants c vs line_text with
    | some r => some r
    | none => scanTable rest line_text

/-- `_detect_header_with_content(line_text, line_max_size, page_median_size)`:
returns `(header_token, remaining_text)`.  The two size arguments are
accepted, as in the source, but never inspected. -/
def detect_header_with_content (line_text : List Char)
    (_line_max_size _page_median_size : ℚ) :
    Option (List Char) × List Char :=
  if line_text.isEmpty then (none, line_text)
  else if hasSkipToken (lowerStr line_text) then (none, line_text)
  else
    match scanTable section_aliases line_text with
    | some (c, r) => (some c, r)
    | none => (none, line_text)

/-- One styled span of a layout line: `{"text": ..., "size": ...}`. -/
structure Span where
  text : List Char
  size : ℚ
deriving DecidableEq

/-- A visual line (its spans), a text block (its lines), a page (its blocks),
and a document (its pages), as produced by `page.get_text("dict")`. -/
abbrev LineRec := List Span
abbrev BlockRec := List LineRec
abbrev PageRec := List BlockRec
abbrev DocRec := List PageRec

/-- `_merge_spans(spans)`: concatenate span texts (stripped) with single
spaces, joining directly across a trailing hyphen, tracking the maximum
span size; returns `(text.strip(), max_size)`. -/
def merge_spans (spans : List Span) : List Char × ℚ :=
  let rec go (text : List Char) (max_size : ℚ) :
      List Span → List Char × ℚ
    | [] => (text, max_size)
    | sp :: rest =>
      let s_text := stripWs sp.text
      let max_size := max max_size sp.size
      if s_text.isEmpty then go text max_size rest
      else if text.getLast? = some '-' then
        go (text.dropLast ++ s_text) max_size rest
      else
        go (text ++ (if text.isEmpty then [] else [' ']) ++ s_text)
          max_size rest
  let (t, m) := go [] 0 spans
  (stripWs t, m)

/-- Insertion into a sorted list of rationals. -/
def insertSorted (q : ℚ) : List ℚ → List ℚ
  | [] => [q]
  | x :: xs => if q ≤ x then q :: x :: xs else x :: insertSorted q xs

/-- Python's `sorted(arr)` (insertion sort computes the same sorted list,
and evaluates in the kernel). -/
def sortRat : List ℚ → List ℚ
  | [] => []
  | x :: xs => insertSorted x (sortRat xs)

/-- `_median(arr)`: sorted middle element, or mean of the two middle ones. -/
def median (arr : List ℚ) : ℚ :=
  if arr.isEmpty then 0
  else
    let arr := sortRat arr
    let n := arr.length
    let mid := n / 2
    if n % 2 = 1 then arr.getD mid 0
    else (arr.getD (mid - 1) 0 + arr.getD mid 0) / 2

/-- Keyword set of `_is_front_matter_line`. -/
def front_matter_keywords : List (List Char) :=
  [ "doi".toList, "http".toList, "license".toList, "academic editor".toList,
    "received".toList, "revised".toList, "accepted".toList,
    "published".toList, "correspondence".toList, "copyright".toList,
    "basel".toList ]

/-- `_is_front_matter_line(text)`: metadata keywords, or an author-like line
(at least two commas, at most eight words, one third of them capitalized). -/
def is_front_matter_line (text : List Char) : Bool :=
  let lower := lowerStr text
  if front_matter_keywords.any (fun k => hasSub k lower) then true
  else
    if 2 ≤ countCh ',' text && (splitWsRuns text).length ≤ 8 then
      let words := splitWsRuns text
      let cap_count := words.countP
        (fun w => (w.headD ' ').isUpper && 1 < w.length)
      decide ((words.length : Nat) / 3 ≤ cap_count)
    else false

end DocProc

namespace DocProc

/-- Decimal digit characters, most significant first, fuel-based
(`fuel ≥ n` suffices; `natDigitsF _ 0 = []`). -/
def natDigitsF : Nat → Nat → List Char
  | 0, _ => []
  | fuel + 1, n =>
    if n = 0 then []
    else natDigitsF fuel (n / 10) ++ [Char.ofNat (48 + n % 10)]

/-- Decimal digit characters of a page number, most significant first
(the characters of Python's `f"{n}"` for `n ≥ 1`). -/
def digitsChars (n : Nat) : List Char := natDigitsF (n + 1) n

/-- Numeric value of a digit-character run, as `int(...)` would parse it. -/
def parseDigits (l : List Char) : Nat :=
  l.foldl (fun a c => 10 * a + (c.toNat - 48)) 0

/-- The five characters `[PAGE` that must never leak into a chunk. -/
def pagePat : List Char := ['[', 'P', 'A', 'G', 'E']

/-- The page marker `"[PAGE n]"` matched by `self._page_pattern`. -/
def markerChars (n : Nat) : List Char :=
  pagePat ++ ' ' :: digitsChars n ++ [']']

/-- The string `f"[PAGE {page_no}] {text}"` appended to a section buffer. -/
def taggedLine (n : Nat) (text : List Char) : List Char :=
  markerChars n ++ ' ' :: text

/-- Try to match `self._page_pattern` (`\[PAGE (\d+)\]`) at the head of the
list: on success return the page number, the number of characters consumed
and the remainder. -/
def tryMarker (l : List Char) : Option (Nat × Nat × List Char) :=
  if begins (pagePat ++ [' ']) l then
    let l1 := l.drop 6
    let ds := l1.takeWhile Char.isDigit
    if ds.isEmpty then none
    else
      match l1.drop ds.length with
      | ']' :: rest => some (parseDigits ds, 6 + ds.length + 1, rest)
      | _ => none
  else none

theorem tryMarker_consumed (l : List Char) (n k : Nat) (r : List Char)
    (h : tryMarker l = some (n, k, r)) : r.length + k = l.length ∧ 0 < k := by
  unfold tryMarker at h
  by_cases hb : begins (pagePat ++ [' ']) l = true
  · simp only [hb, if_true] at h
    by_cases he : (l.drop 6).takeWhile Char.isDigit = []
    · simp [he] at h
    · simp only [List.isEmpty_iff, he, if_false] at h
      set ds := (l.drop 6).takeWhile Char.isDigit with hds
      rcases hr : (l.drop 6).drop ds.length with _ | ⟨c, rest⟩ <;>
        rw [hr] at h
      · simp at h
      · by_cases hc : c = ']'
        · subst hc
          simp only [Option.some.injEq, Prod.mk.injEq] at h
          obtain ⟨hn, hk, hrr⟩ := h
          subst hrr hk
          have h6 : 6 ≤ l.length := by
            by_contra hlt
            push_neg at hlt
            have : l.drop 6 = [] := List.drop_eq_nil_of_le (by omega)
            rw [this] at hds
            simp [hds] at he
          have hdslen : ds.length ≤ l.length - 6 := by
            have := (List.takeWhile_sublist
              (l := l.drop 6) Char.isDigit).length_le
            simpa [hds] using this
          have := congrArg List.length hr
          simp only [List.length_drop, List.length_cons] at this
          omega
        · simp [hc] at h
  · simp [hb] at h

/-- One left-to-right pass doing the work of both
`self._page_pattern.finditer(text)` and `self._page_pattern.sub('', text)`:
returns the `(match.start(), page)` pairs and the text with all matches
removed. -/
def pageWalkF : Nat → Nat → List Char → List (Nat × Nat) × List Char
  | 0, _, _ => ([], [])
  | fuel + 1, i, s =>
    match s with
    | [] => ([], [])
    | c :: rest =>
      match tryMarker (c :: rest) with
      | some (p, k, rest') =>
        let out := pageWalkF fuel (i + k) rest'
        ((i, p) :: out.1, out.2)
      | none =>
        let out := pageWalkF fuel (i + 1) rest
        (out.1, c :: out.2)

def pageWalk (i : Nat) (s : List Char) : List (Nat × Nat) × List Char :=
  pageWalkF s.length i s

/-- `self._whitespace_re.sub(" ", s)`: collapse each whitespace run to one
space. -/
def collapseWsF : Nat → List Char → List Char
  | 0, _ => []
  | _, [] => []
  | fuel + 1, c :: rest =>
    if pyWs c then ' ' :: collapseWsF fuel (rest.dropWhile pyWs)
    else c :: collapseWsF fuel rest

def collapseWs (s : List Char) : List Char :=
  collapseWsF s.length s

end DocProc


namespace DocProc

/-- A chunk dict `{'text': ..., 'page': ...}`. -/
structure PChunk where
  text : List Char
  page : Nat
deriving DecidableEq

/-- `re.split(r"(?<=[.!?])\s+", s)`: cut after `.`, `!` or `?` when followed
by whitespace, consuming the whitespace run. -/
def splitSentencesF : Nat → List Char → List Char → List (List Char)
  | 0, acc, _ => [acc.reverse]
  | _, acc, [] => [acc.reverse]
  | fuel + 1, acc, c :: rest =>
    if (c = '.' || c = '!' || c = '?') && (rest.headD 'x' |> pyWs) then
      (c :: acc).reverse :: splitSentencesF fuel [] (rest.dropWhile pyWs)
    else splitSentencesF fuel (c :: acc) rest

def splitSentences (s : List Char) : List (List Char) :=
  splitSentencesF s.length [] s

/-- The chunk-page selection loop shared by `_chunk_text` and
`_chunk_text_fallback`: the last recorded marker whose adjusted position is
at or before `char_offset` wins, else `start_page`.  Python's arithmetic is
on unbounded ints, so positions are adjusted in `ℤ`. -/
def pickPage (page_positions : List (Nat × Nat)) (start_page : Nat)
    (char_offset : Nat) : Nat :=
  page_positions.foldl
    (fun chunk_page pp =>
      let adjusted : ℤ := (pp.1 : ℤ) -
        ((page_positions.countP (fun q => q.1 < pp.1)) : ℤ) * 10
      if adjusted ≤ (char_offset : ℤ) then pp.2 else chunk_page)
    start_page

/-- The accumulation loop of `_chunk_text_fallback` over sentences: returns
the chunk list (before overlap is applied).  State is
`(chunks, current, char_offset)`. -/
def fallbackAccum (chunk_size : Nat) (page_positions : List (Nat × Nat))
    (start_page : Nat) :
    List PChunk × List Char × Nat → List (List Char) → List PChunk × List Char × Nat
  | st, [] => st
  | (chunks, current, char_offset), sentence :: rest =>
    if chunk_size < current.length + sentence.length && !current.isEmpty then
      fallbackAccum chunk_size page_positions start_page
        (chunks ++ [⟨stripWs current, pickPage page_positions start_page char_offset⟩],
         sentence, char_offset + current.length) rest
    else
      fallbackAccum chunk_size page_positions start_page
        (chunks,
         if current.isEmpty then sentence
         else stripWs (current ++ ' ' :: sentence),
         char_offset) rest

/-- The sequential overlap pass of `_chunk_text_fallback`: each chunk after
the first gets `prev[-overlap:].lstrip()` and a space prepended, where
`prev` is the already-updated previous chunk. -/
def fallbackOverlap (overlap : Nat) : List Char → List PChunk → List PChunk
  | _, [] => []
  | prev, c :: rest =>
    let t := lstripWs (takeRight overlap prev) ++ ' ' :: c.text
    ⟨t, c.page⟩ :: fallbackOverlap overlap t rest

/-- `_chunk_text_fallback(text, start_page)`: sentence-boundary chunking
with the simple character overlap. -/
def chunk_text_fallback (chunk_size overlap : Nat) (text : List Char)
    (start_page : Nat) : List PChunk :=
  let walk := pageWalk 0 text
  let page_positions := walk.1
  let clean_text := stripWs (collapseWs walk.2)
  let sentences := splitSentences clean_text
  let acc :=
    fallbackAccum chunk_size page_positions start_page ([], [], 0) sentences
  let current := acc.2.1
  let chunks :=
    if current.isEmpty then acc.1
    else acc.1 ++ [⟨stripWs current, pickPage page_positions start_page acc.2.2⟩]
  if 0 < overlap && 1 < chunks.length then
    match chunks with
    | [] => []
    | c :: rest => c :: fallbackOverlap overlap c.text rest
  else chunks

end DocProc

namespace DocProc

/-- Find the first occurrence of `sep` in `l`: `some (before, after)`. -/
def splitOnce (sep : List Char) : List Char → Option (List Char × List Char)
  | [] => none
  | c :: rest =>
    if begins sep (c :: rest) then some ([], (c :: rest).drop sep.length)
    else (splitOnce sep rest).map (fun ab => (c :: ab.1, ab.2))

theorem splitOnce_eq (sep l a b : List Char)
    (h : splitOnce sep l = some (a, b)) : l = a ++ sep ++ b := by
  induction l generalizing a b with
  | nil => simp [splitOnce] at h
  | cons c rest ih =>
    unfold splitOnce at h
    by_cases hb : begins sep (c :: rest) = true
    · simp only [hb, if_true, Option.some.injEq, Prod.mk.injEq] at h
      obtain ⟨ha, hbb⟩ := h
      subst ha
      have : sep ++ b = c :: rest := by
        clear ih
        induction sep generalizing c rest with
        | nil => simp_all [begins, ← hbb]
        | cons p ps ih2 =>
          simp only [begins, Bool.and_eq_true, decide_eq_true_eq] at hb
          cases rest with
          | nil =>
            obtain ⟨hpc, hps⟩ := hb
            cases ps with
            | nil => simp_all [begins]
            | cons q qs => simp [begins] at hps
          | cons d ds =>
            obtain ⟨hpc, hps⟩ := hb
            subst hpc
            have := ih2 d ds hps (by simpa using hbb)
            simp_all
      simpa using this.symm
    · simp only [hb, if_false] at h
      rcases hx : splitOnce sep rest with _ | ⟨a1, b1⟩ <;> rw [hx] at h
      · simp at h
      · have h2 : (c :: a1, b1) = (a, b) := by simpa using h
        have ha : c :: a1 = a := congrArg Prod.fst h2
        have hbb : b1 = b := congrArg Prod.snd h2
        have hres := ih a1 b1 hx
        subst ha
        subst hbb
        simp [hres]

/-- Split retaining the separator at the end of each piece (the
`keep_separator="end"` convention of the spec's cascade); fuel-based. -/
def splitKeepF (sep : List Char) : Nat → List Char → List (List Char)
  | 0, l => [l]
  | fuel + 1, l =>
    match splitOnce sep l with
    | none => [l]
    | some (a, b) => (a ++ sep) :: splitKeepF sep fuel b

def splitKeep (sep : List Char) (l : List Char) : List (List Char) :=
  splitKeepF sep l.length l

theorem splitKeepF_flatten (sep : List Char) (hne : sep ≠ []) (fuel : Nat) :
    ∀ l : List Char, l.length ≤ fuel → (splitKeepF sep fuel l).flatten = l := by
  induction fuel with
  | zero => intro l _; simp [splitKeepF]
  | succ fuel ih =>
    intro l hl
    unfold splitKeepF
    rcases h : splitOnce sep l with _ | ⟨a, b⟩
    · simp
    · have hab := splitOnce_eq sep l a b h
      have hlen : b.length ≤ fuel := by
        have hl2 := congrArg List.length hab
        simp only [List.length_append] at hl2
        have hsep : 0 < sep.length := List.length_pos.mpr hne
        omega
      simp only [List.flatten_cons, ih b hlen]
      exact hab.symm

theorem splitKeep_flatten (sep : List Char) (hne : sep ≠ []) (l : List Char) :
    (splitKeep sep l).flatten = l :=
  splitKeepF_flatten sep hne l.length l le_rfl

/-- Modelled from the spec: the recursive separator cascade of §4.6 (the
repository delegates this step to `RecursiveCharacterTextSplitter`, whose
code is not part of the repository).  A segment within the bound is kept
whole; otherwise it is split on the coarsest separator and each oversize
piece recurses into the finer separators, with individual characters as the
last resort.  Separators are retained at the end of each piece. -/
def recSplit (seps : List (List Char)) (bound : Nat) (s : List Char) :
    List (List Char) :=
  if s.length ≤ bound then [s]
  else
    match seps with
    | [] => s.map (fun c => [c])
    | sep :: rest =>
      if sep.isEmpty then s.map (fun c => [c])
      else
        ((splitKeep sep s).map
          (fun p => if p.length ≤ bound then [p] else recSplit rest bound p)).flatten

/-- The separator cascade of the source configuration. -/
def separators : List (List Char) :=
  [ "\n\n".toList, "\n".toList, ". ".toList, "! ".toList, "? ".toList,
    "; ".toList, ": ".toList, ", ".toList, " ".toList ]

/-- Modelled from the spec: the overlap step of §4.6 — the trailing
`overlap` characters of the previous piece, trimmed forward to the next
whitespace boundary when they would start inside a word. -/
def wsTailPart (overlap : Nat) (prev : List Char) : List Char :=
  if prev.length ≤ overlap then prev
  else
    let t := takeRight overlap prev
    if pyWs ((prev.drop (prev.length - overlap - 1)).headD ' ') then t
    else t.dropWhile (fun c => !pyWs c)

/-- Modelled from the spec: prepend each piece after the first with the
word-aligned tail of its predecessor (the predecessor's original text). -/
def applyOverlapModel (overlap : Nat) : List (List Char) → List (List Char)
  | [] => []
  | c :: rest =>
    let rec go (prev : List Char) : List (List Char) → List (List Char)
      | [] => []
      | x :: xs => (wsTailPart overlap prev ++ x) :: go x xs
    c :: go c rest

/-- Modelled from the spec: `self.text_splitter.split_text` — the recursive
cascade (§4.6 step 2) followed by the overlap rule (§4.6 step 5). -/
def split_text (chunk_size overlap : Nat) (s : List Char) :
    List (List Char) :=
  applyOverlapModel overlap (recSplit separators chunk_size s)

/-- The body of the chunk-to-page mapping loop of `_chunk_text`. -/
def chunkPages (page_positions : List (Nat × Nat)) (start_page : Nat) :
    Nat → List (List Char) → List PChunk
  | _, [] => []
  | char_offset, t :: rest =>
    ⟨t, pickPage page_positions start_page char_offset⟩ ::
      chunkPages page_positions start_page (char_offset + t.length + 1) rest

/-- `_chunk_text(text, start_page)`: extract and strip page markers, split
the cleaned text, drop pieces of at most 50 characters, and map each
surviving piece to a page. -/
def chunk_text (chunk_size overlap : Nat) (text : List Char)
    (start_page : Nat) : List PChunk :=
  let walk := pageWalk 0 text
  let page_positions := walk.1
  let clean_text := stripWs (collapseWs walk.2)
  let raw_chunks := split_text chunk_size overlap clean_text
  let raw_chunks :=
    (raw_chunks.map stripWs).filter (fun c => 50 < c.length)
  chunkPages page_positions start_page 0 raw_chunks

end DocProc

namespace DocProc

/-- A section accumulation buffer: `{"text": [...], "start_page": n}`. -/
structure SectionBuf where
  text : List (List Char)
  start_page : Nat
deriving DecidableEq

/-- The running state of the accumulation loop of `_process_pdf_sync`:
the insertion-ordered `sections` dict, `current_section`, and
`total_text_extracted`. -/
structure AccState where
  sections : List (List Char × SectionBuf)
  current : List Char
  extracted : Nat
deriving DecidableEq

/-- `key in sections`. -/
def hasKey (m : List (List Char × SectionBuf)) (k : List Char) : Bool :=
  m.any (fun e => e.1 = k)

/-- `sections[key]["text"].append(entry)` (no-op on a missing key, which the
loop never produces). -/
def appendSec (m : List (List Char × SectionBuf)) (k entry : List Char) :
    List (List Char × SectionBuf) :=
  m.map (fun e => if e.1 = k then (e.1, ⟨e.2.text ++ [entry], e.2.start_page⟩) else e)

/-- `sections[key] = {"text": [], "start_page": page_no}` (dict insertion
order: appended at the end). -/
def insertSec (m : List (List Char × SectionBuf)) (k : List Char)
    (page_no : Nat) : List (List Char × SectionBuf) :=
  m ++ [(k, ⟨[], page_no⟩)]

/-- The body of the per-line loop of `_process_pdf_sync` (lines 154–186):
merge the spans, classify, and append to the current buffer. -/
def processLine (page_no : Nat) (page_median : ℚ) (st : AccState)
    (spans : List Span) : AccState :=
  if spans.isEmpty then st
  else
    let tm := merge_spans spans
    let text := stripWs tm.1
    if text.isEmpty then st
    else
      let extracted := st.extracted + text.length
      let hd := detect_header_with_content text tm.2 page_median
      match hd.1 with
      | some header_token =>
        let m :=
          if hasKey st.sections header_token then st.sections
          else insertSec st.sections header_token page_no
        ⟨appendSec m header_token (taggedLine page_no text), header_token,
          extracted⟩
      | none =>
        if st.current = "preamble".toList && is_front_matter_line text then
          ⟨appendSec st.sections "preamble".toList (taggedLine page_no text),
            st.current, extracted⟩
        else
          let m :=
            if hasKey st.sections st.current then st.sections
            else insertSec st.sections st.current page_no
          ⟨appendSec m st.current (taggedLine page_no text), st.current,
            extracted⟩

/-- All span sizes of one page, for the per-page median. -/
def pageSizes (p : PageRec) : List ℚ :=
  ((p.map (fun b => (b.map (fun l => l.map Span.size)).flatten)).flatten)

/-- The per-page loop of `_process_pdf_sync` (lines 137–186). -/
def processPage (page_no : Nat) (st : AccState) (p : PageRec) : AccState :=
  let sizes := pageSizes p
  let page_median := if sizes.isEmpty then 0 else median sizes
  (p.flatten).foldl (processLine page_no page_median) st

/-- The whole accumulation pass over the document's pages. -/
def accumulate (doc : DocRec) : AccState :=
  let init : AccState := ⟨[("preamble".toList, ⟨[], 1⟩)], "preamble".toList, 0⟩
  (doc.enum.foldl (fun st pi => processPage (pi.1 + 1) st pi.2) init)

/-- A chunk value as stored in a section's `chunks` list: ordinarily a
string, but the `unknown` section stores the chunk dicts themselves. -/
inductive ChunkEntry where
  | s (t : List Char)
  | d (c : PChunk)
deriving DecidableEq

/-- One value of the processed `sections` mapping.  `chunks_with_pages` is
`none` when the key is absent (the `unknown` section). -/
structure SectionOut where
  chunks : List ChunkEntry
  chunk_count : Nat
  start_page : Nat
  preview : List Char
  total_length : Nat
  avg_chunk_size : Nat
  chunks_with_pages : Option (List PChunk)
deriving DecidableEq

/-- `" ".join(content["text"])`. -/
def joinSpace (l : List (List Char)) : List Char :=
  (l.intersperse [' ']).flatten

/-- Document metadata.  The title/author heuristics of `_extract_metadata`
(lines 451–546) feed no claim; the embedded-metadata strings reaching the
result are taken as parameters, and `page_count` is the page count of the
layout, as `doc.page_count` reports. -/
structure Metadata where
  title : List Char
  author : List Char
  page_count : Nat
deriving DecidableEq

structure Stats where
  total_text_extracted : Nat
  total_text_in_sections : Nat
  data_loss_percentage : ℚ
deriving DecidableEq

structure ProcResult where
  metadata : Metadata
  sections : List (List Char × SectionOut)
  stats : Stats
deriving DecidableEq

/-- Round half to even, as Python's `round` does (the values reaching it in
this development are exact in binary, so the float detour is faithful). -/
def roundHalfEven (q : ℚ) : ℤ :=
  let n := q.floor
  let f := q - n
  if f < 1/2 then n else if 1/2 < f then n + 1
  else if n % 2 = 0 then n else n + 1

/-- Python `round(q, 2)`. -/
def round2 (q : ℚ) : ℚ := (roundHalfEven (q * 100) : ℚ) / 100

/-- One iteration of the per-section assembly loop of `_process_pdf_sync`
(lines 194–222). -/
def asmStep (chunk_size overlap : Nat)
    (acc : List (List Char × SectionOut) × List (List Char × List Char) × Nat)
    (nc : List Char × SectionBuf) :
    List (List Char × SectionOut) × List (List Char × List Char) × Nat :=
  let processed := acc.1
  let uncategorized := acc.2.1
  let name := nc.1
  let content := nc.2
  let joined := joinSpace content.text
  let total := acc.2.2 + joined.length
  if joined.length ≤ 30 &&
      !(name = "abstract".toList || name = "introduction".toList) then
    (processed, uncategorized ++ [(name, joined)], total)
  else
    let joined := stripWs (collapseWs joined)
    let start_page := content.start_page
    let chunks_with_pages := chunk_text chunk_size overlap joined start_page
    let chunk_texts := chunks_with_pages.map PChunk.text
    (processed ++ [(name,
      { chunks := chunk_texts.map ChunkEntry.s,
        chunk_count := chunk_texts.length,
        start_page := start_page,
        preview := joined.take 250,
        total_length := joined.length,
        avg_chunk_size :=
          if chunk_texts.isEmpty then 0
          else (chunk_texts.map List.length).sum / chunk_texts.length,
        chunks_with_pages := some chunks_with_pages })],
     uncategorized, total)

/-- The per-section assembly loop of `_process_pdf_sync` (lines 190–222):
returns the processed sections, the uncategorized leftovers, and
`total_text_in_sections`. -/
def assembleSections (chunk_size overlap : Nat)
    (secs : List (List Char × SectionBuf)) :
    List (List Char × SectionOut) × List (List Char × List Char) × Nat :=
  secs.foldl (asmStep chunk_size overlap) ([], [], 0)

/-- The uncategorized-content block of `_process_pdf_sync` (lines 225–237).
Python's `len(c)` on a chunk dict is its key count, 2. -/
def addUnknown (chunk_size overlap : Nat)
    (processed : List (List Char × SectionOut))
    (uncategorized : List (List Char × List Char)) :
    List (List Char × SectionOut) :=
  if uncategorized.isEmpty then processed
  else
    let uncategorized_text :=
      joinSpace (uncategorized.map
        (fun nt => "[SECTION: ".toList ++ nt.1 ++ "] ".toList ++ nt.2))
    if 100 < uncategorized_text.length then
      let chunks := chunk_text chunk_size overlap uncategorized_text 1
      processed ++ [("unknown".toList,
        { chunks := chunks.map ChunkEntry.d,
          chunk_count := chunks.length,
          start_page := 1,
          preview := uncategorized_text.take 250,
          total_length := uncategorized_text.length,
          avg_chunk_size :=
            if chunks.isEmpty then 0
            else (chunks.map (fun _ => 2)).sum / chunks.length,
          chunks_with_pages := none })]
    else processed

/-- `_process_pdf_sync(file_content)` on the layout records of the
document. -/
def process_pdf_sync (chunk_size overlap : Nat) (title author : List Char)
    (doc : DocRec) : ProcResult :=
  let st := accumulate doc
  let asm := assembleSections chunk_size overlap st.sections
  let processed := addUnknown chunk_size overlap asm.1 asm.2.1
  let total_in_sections := asm.2.2
  let extracted := st.extracted
  let dlp : ℚ :=
    if 0 < extracted then
      round2 ((((extracted : ℚ) - (total_in_sections : ℚ)) / (extracted : ℚ)) * 100)
    else 0
  { metadata := ⟨title, author, doc.length⟩,
    sections := processed,
    stats := ⟨extracted, total_in_sections, dlp⟩ }

/-- Python's length of a chunk value: string length, or the dict's key
count (2) for the `unknown` section's dict chunks. -/
def entryLen : ChunkEntry → Nat
  | .s t => t.length
  | .d _ => 2

structure ChunkMeta where
  sectionName : List Char
  page : Nat
  start_page : Nat
  chunk_index : Nat
  chunk_global_id : Nat
  total_chunks_in_section : Nat
  paper_title : List Char
  paper_author : List Char
  chunk_length : Nat
deriving DecidableEq

structure FlatChunk where
  text : ChunkEntry
  metadata : ChunkMeta
deriving DecidableEq

/-- `get_chunks_with_metadata(processed_result)`: flatten all sections'
chunks in section order with a global id. -/
def get_chunks_with_metadata (res : ProcResult) : List FlatChunk :=
  (res.sections.foldl
    (fun (acc : List FlatChunk × Nat) ns =>
      let (out, gid) := acc
      let (section_name, sec) := ns
      let cwp := sec.chunks_with_pages.getD []
      if !cwp.isEmpty then
        let items := cwp.enum.map (fun ci =>
          FlatChunk.mk (ChunkEntry.s ci.2.text)
            ⟨section_name, ci.2.page, sec.start_page, ci.1, gid + ci.1,
              cwp.length, res.metadata.title, res.metadata.author,
              ci.2.text.length⟩)
        (out ++ items, gid + cwp.length)
      else
        let items := sec.chunks.enum.map (fun ci =>
          FlatChunk.mk ci.2
            ⟨section_name, sec.start_page, sec.start_page, ci.1, gid + ci.1,
              sec.chunks.length, res.metadata.title, res.metadata.author,
              entryLen ci.2⟩)
        (out ++ items, gid + sec.chunks.length))
    ([], 0)).1

end DocProc

namespace DocProc

theorem lowerStr_append (a b : List Char) :
    lowerStr (a ++ b) = lowerStr a ++ lowerStr b := by
  simp [lowerStr]

theorem lowerStr_length (s : List Char) :
    (lowerStr s).length = s.length := by
  simp [lowerStr]

theorem begins_self_append (p t : List Char) : begins p (p ++ t) = true := by
  induction p with
  | nil => simp [begins]
  | cons c cs ih => simp [begins, ih]

/-- `_strip_punct(s)`: remove every `string.punctuation` character. -/
def strip_punct (s : List Char) : List Char :=
  s.filter (fun c => !pyPunct.contains c)

/-- Spec-side: one alias variant matches a line, by case 1 (alias strictly
extended by a separator) or case 2 (numbered header). -/
def variantHit (v s : List Char) : Bool :=
  (case1 v s).isSome || (case2 v s).isSome

/-- Spec-side: the first canonical section, in alias-table declaration
order, one of whose variants matches the line. -/
def firstAliasMatch (s : List Char) : Option (List Char) :=
  (section_aliases.find? (fun cv => cv.2.any (fun v => variantHit v s))).map
    (fun cv => cv.1)

theorem scanVariants_eq (c : List Char) (vs : List (List Char))
    (s : List Char) :
    (scanVariants c vs s).isSome = vs.any (fun v => variantHit v s) ∧
    ∀ r, scanVariants c vs s = some r → r.1 = c := by
  induction vs with
  | nil => simp [scanVariants]
  | cons v rest ih =>
    unfold scanVariants
    rcases h1 : case1 v s with _ | r1
    · rcases h2 : case2 v s with _ | r2
      · simpa [variantHit, h1, h2] using ih
      · simp [variantHit, h1, h2]
    · simp [variantHit, h1]

theorem scanTable_eq_firstAliasMatch (s : List Char) :
    (scanTable section_aliases s).map (fun r => r.1) = firstAliasMatch s := by
  unfold firstAliasMatch
  induction section_aliases with
  | nil => simp [scanTable, List.find?]
  | cons cv rest ih =>
    obtain ⟨c, vs⟩ := cv
    unfold scanTable
    rcases h : scanVariants c vs s with _ | r
    · have hany : vs.any (fun v => variantHit v s) = false := by
        have := (scanVariants_eq c vs s).1
        rw [h] at this
        simpa using this.symm
      rw [List.find?]
      simp only [hany]
      exact ih
    · have hc := (scanVariants_eq c vs s).2 r h
      have hany : vs.any (fun v => variantHit v s) = true := by
        have := (scanVariants_eq c vs s).1
        rw [h] at this
        simpa using this.symm
      rw [List.find?]
      simp [hany, hc]

end DocProc

namespace DocProc

theorem detect_eq_firstAliasMatch (s : List Char) (fs m : ℚ)
    (h1 : s ≠ []) (h2 : hasSkipToken (lowerStr s) = false) :
    (detect_header_with_content s fs m).1 = firstAliasMatch s := by
  unfold detect_header_with_content
  have he : s.isEmpty = false := by simpa using h1
  rw [he, h2]
  simp only [Bool.false_eq_true, if_false]
  rcases h : scanTable section_aliases s with _ | r
  · have hh := scanTable_eq_firstAliasMatch s
    rw [h] at hh
    simpa using hh
  · obtain ⟨c, rr⟩ := r
    have hh := scanTable_eq_firstAliasMatch s
    rw [h] at hh
    simpa using hh

theorem case1_decomp (v pre : List Char) (c : Char) (tail : List Char)
    (hlow : lowerStr pre = lowerStr v) (hlen : pre.length = v.length)
    (hc : c = ':' ∨ c = '-' ∨ c = '.' ∨ c = ' ' ∨ c = '\t') :
    case1 v (pre ++ c :: tail) = some (lstripChars sepChars (c :: tail)) := by
  have hb : begins (lowerStr v) (lowerStr (pre ++ c :: tail)) = true := by
    rw [lowerStr_append, ← hlow]
    exact begins_self_append _ _
  have hlt : v.length < (pre ++ c :: tail).length := by
    simp only [List.length_append, List.length_cons]
    omega
  have hdrop : (pre ++ c :: tail).drop v.length = c :: tail := by
    rw [← hlen]
    exact List.drop_left pre _
  unfold case1
  simp only [hb, if_true, hdrop, hlt, List.take_succ_cons, List.take_zero]
  rcases hc with h | h | h | h | h <;> subst h <;> simp

end DocProc

namespace DocProc

theorem firstAliasMatch_of_abstract_hit (s : List Char) (v : List Char)
    (hv : v ∈ [ "abstract".toList, "Abstract".toList, "ABSTRACT".toList,
      "summary".toList, "executive summary".toList ])
    (h : variantHit v s = true) :
    firstAliasMatch s = some "abstract".toList := by
  unfold firstAliasMatch section_aliases
  rw [List.find?_cons_of_pos]
  · rfl
  · refine List.any_eq_true.mpr ⟨v, ?_, h⟩
    simpa using hv

/-- C1: the claim's exact-alias clause fails on the code.  The classifier
used by the accumulator (`_detect_header_with_content`) demands a character
after the alias, so a line that exactly equals the alias — here
`"Introduction"`, whose normalization equals the declared alias
`"introduction"` — is not classified as a header at all. -/
theorem C1_counterexample :
    lowerStr (strip_punct "Introduction".toList) = "introduction".toList ∧
    section_aliases.any
      (fun cv => cv.1 = "introduction".toList &&
        cv.2.contains "introduction".toList) = true ∧
    detect_header_with_content "Introduction".toList 20 10 =
      (none, "Introduction".toList) :=
  ⟨by decide, by decide, by decide⟩

/-- C1 (amended): the classifier used by the accumulator ignores font size
and page median entirely, and classifies a non-empty line without skip
tokens as a header exactly when some alias matches it as a strict
separator-extension (case 1) or as a numbered header (case 2); the canonical
section returned is the first one in table declaration order with a matching
alias.  A line exactly equal to an alias, with nothing following, matches
neither case and is not classified. -/
theorem C1_amended (s : List Char) (fs m fs' m' : ℚ) :
    detect_header_with_content s fs m = detect_header_with_content s fs' m' ∧
    (s ≠ [] → hasSkipToken (lowerStr s) = false →
      (detect_header_with_content s fs m).1 = firstAliasMatch s) :=
  ⟨rfl, fun h1 h2 => detect_eq_firstAliasMatch s fs m h1 h2⟩

theorem C1_amended_witness :
    ("2.1 Research Methodology".toList ≠ [] ∧
      hasSkipToken (lowerStr "2.1 Research Methodology".toList) = false) ∧
    (detect_header_with_content "2.1 Research Methodology".toList 1 100 =
        detect_header_with_content "2.1 Research Methodology".toList 50 0 ∧
      (detect_header_with_content "2.1 Research Methodology".toList 1 100).1 =
        firstAliasMatch "2.1 Research Methodology".toList) ∧
    firstAliasMatch "2.1 Research Methodology".toList =
      some "methodology".toList :=
  ⟨⟨by decide, by decide⟩,
   ⟨(C1_amended "2.1 Research Methodology".toList 1 100 50 0).1,
    (C1_amended "2.1 Research Methodology".toList 1 100 50 0).2
      (by decide) (by decide)⟩,
   by decide⟩

/-- A long paragraph-like line beginning with an alias and separator. -/
def longLine : List Char :=
  ("abstract: lorem ipsum dolor amet lorem ipsum dolor amet lorem ipsum " ++
   "dolor amet lorem ipsum dolor amet lorem ipsum dolor amet lorem ipsum " ++
   "dolor amet lorem ipsum dolor amet lorem ipsum").toList

/-- C3: the claim fails on the code.  The 150-character / 20-word guard
lives only in `_detect_header`, which the accumulator never calls; the
classifier it does call (`_detect_header_with_content`) has no length guard,
so this 182-character, 31-word line is classified as an `abstract` header. -/
theorem C3_counterexample :
    150 < longLine.length ∧ 20 < (splitWsRuns longLine).length ∧
    (detect_header_with_content longLine 10 10).1 = some "abstract".toList :=
  ⟨by decide, by decide, by decide⟩

/-- C3 (amended): the classifier used by the accumulator applies no length
or word-count limit: every line starting with `"abstract:"` and free of
skip tokens is classified as an `abstract` header, no matter how long the
rest of the line is. -/
theorem C3_amended (rest : List Char) (fs m : ℚ)
    (h : hasSkipToken (lowerStr ("abstract: ".toList ++ rest)) = false) :
    (detect_header_with_content ("abstract: ".toList ++ rest) fs m).1 =
      some "abstract".toList := by
  have h1 : ("abstract: ".toList ++ rest) ≠ [] := by simp
  rw [detect_eq_firstAliasMatch _ fs m h1 h]
  have hsplit : "abstract: ".toList ++ rest =
      "abstract".toList ++ ':' :: (' ' :: rest) := rfl
  refine firstAliasMatch_of_abstract_hit _ "abstract".toList (by simp) ?_
  have hcase := case1_decomp "abstract".toList "abstract".toList ':'
    (' ' :: rest) rfl rfl (Or.inl rfl)
  rw [hsplit]
  unfold variantHit
  rw [hcase]
  rfl

theorem C3_amended_witness :
    hasSkipToken (lowerStr ("abstract: ".toList ++
      "lorem ipsum dolor amet lorem ipsum dolor amet lorem ipsum dolor amet lorem ipsum dolor amet lorem ipsum dolor amet lorem ipsum dolor amet lorem ipsum dolor amet lorem ipsum".toList)) = false ∧
    (detect_header_with_content ("abstract: ".toList ++
      "lorem ipsum dolor amet lorem ipsum dolor amet lorem ipsum dolor amet lorem ipsum dolor amet lorem ipsum dolor amet lorem ipsum dolor amet lorem ipsum dolor amet lorem ipsum".toList) 10 10).1 =
      some "abstract".toList :=
  ⟨by decide,
   C3_amended "lorem ipsum dolor amet lorem ipsum dolor amet lorem ipsum dolor amet lorem ipsum dolor amet lorem ipsum dolor amet lorem ipsum dolor amet lorem ipsum dolor amet lorem ipsum".toList
     10 10 (by decide)⟩

/-- C10: `"summary"` is declared as an alias of both `abstract` and
`conclusions`, and every line matching through it — a prefix whose
lowercase form is `"summary"` followed by a separator character, with no
skip token — classifies as `abstract`, never `conclusions`, because the
`abstract` entry is scanned first. -/
theorem C10_thm :
    section_aliases.any
      (fun cv => cv.1 = "abstract".toList &&
        cv.2.contains "summary".toList) = true ∧
    section_aliases.any
      (fun cv => cv.1 = "conclusions".toList &&
        cv.2.contains "summary".toList) = true ∧
    ∀ (pre : List Char) (c : Char) (tail : List Char) (fs m : ℚ),
      lowerStr pre = "summary".toList →
      (c = ':' ∨ c = '-' ∨ c = '.' ∨ c = ' ' ∨ c = '\t') →
      hasSkipToken (lowerStr (pre ++ c :: tail)) = false →
      (detect_header_with_content (pre ++ c :: tail) fs m).1 =
        some "abstract".toList := by
  refine ⟨by decide, by decide, fun pre c tail fs m hlow hc hskip => ?_⟩
  have hlen : pre.length = ("summary".toList).length := by
    have h2 := congrArg List.length hlow
    rw [lowerStr_length] at h2
    simpa using h2
  have hne : pre ++ c :: tail ≠ [] := by
    intro hx
    have h3 := congrArg List.length hx
    simp only [List.length_append, List.length_cons, List.length_nil] at h3
    omega
  rw [detect_eq_firstAliasMatch _ fs m hne hskip]
  have hlowv : lowerStr pre = lowerStr "summary".toList := by
    rw [hlow]
    rfl
  have hcase := case1_decomp "summary".toList pre c tail hlowv hlen hc
  refine firstAliasMatch_of_abstract_hit _ "summary".toList (by simp) ?_
  unfold variantHit
  rw [hcase]
  rfl

theorem C10_witness :
    (lowerStr "Summary".toList = "summary".toList ∧
      hasSkipToken
        (lowerStr ("Summary".toList ++ ':' :: " We conclude.".toList)) = false) ∧
    (detect_header_with_content
        ("Summary".toList ++ ':' :: " We conclude.".toList) 12 10).1 =
      some "abstract".toList :=
  ⟨⟨by decide, by decide⟩,
   (C10_thm.2.2 "Summary".toList ':' " We conclude.".toList 12 10
     (by decide) (Or.inl rfl) (by decide))⟩

end DocProc

namespace DocProc

theorem merge_go_snd (l : List Span) : ∀ t m,
    (merge_spans.go t m l).2 = l.foldl (fun a sp => max a sp.size) m := by
  induction l with
  | nil => intro t m; rfl
  | cons sp rest ih =>
    intro t m
    simp only [merge_spans.go, List.foldl_cons]
    split_ifs <;> rw [ih]

theorem merge_go_fst (l : List Span) : ∀ t m m',
    (merge_spans.go t m l).1 = (merge_spans.go t m' l).1 := by
  induction l with
  | nil => intro t m m'; rfl
  | cons sp rest ih =>
    intro t m m'
    simp only [merge_spans.go]
    split_ifs <;> apply ih

theorem merge_go_ws (sp : Span) (l : List Span) (t : List Char) (m : ℚ)
    (h : stripWs sp.text = []) :
    merge_spans.go t m (sp :: l) = merge_spans.go t (max m sp.size) l := by
  simp [merge_spans.go, h]

theorem foldl_max_shift (l : List Span) : ∀ a b : ℚ,
    l.foldl (fun x sp => max x sp.size) (max a b) =
      max a (l.foldl (fun x sp => max x sp.size) b) := by
  induction l with
  | nil => intro a b; rfl
  | cons sp rest ih =>
    intro a b
    simp only [List.foldl_cons, max_assoc]
    exact ih a (max b sp.size)

theorem foldl_max_mem (l : List Span) : ∀ a : ℚ,
    l.foldl (fun x sp => max x sp.size) a ∈ a :: l.map Span.size := by
  induction l with
  | nil => intro a; simp
  | cons sp rest ih =>
    intro a
    simp only [List.foldl_cons, List.map_cons]
    rcases max_choice a sp.size with h | h <;> rw [h]
    · have h2 := ih a
      simp only [List.mem_cons] at h2 ⊢
      tauto
    · have h2 := ih sp.size
      simp only [List.mem_cons] at h2 ⊢
      tauto

theorem foldl_max_le (l : List Span) : ∀ a : ℚ,
    (a ≤ l.foldl (fun x sp => max x sp.size) a) ∧
    ∀ q ∈ l.map Span.size, q ≤ l.foldl (fun x sp => max x sp.size) a := by
  induction l with
  | nil => intro a; simp
  | cons sp rest ih =>
    intro a
    simp only [List.foldl_cons, List.map_cons, List.mem_cons]
    constructor
    · exact le_trans (le_max_left a sp.size) (ih (max a sp.size)).1
    · intro q hq
      rcases hq with h | h
      · subst h
        exact le_trans (le_max_right a sp.size) (ih (max a sp.size)).1
      · exact (ih (max a sp.size)).2 q h

/-- C9: `_merge_spans` reports as the line's font size the maximum size over
all spans — including empty or whitespace-only spans, which are skipped for
text concatenation but still raise the reported size — and returns
`("", 0.0)` on the empty span list. -/
theorem C9_thm :
    merge_spans [] = ([], 0) ∧
    (∀ (sp : Span) (spans : List Span), stripWs sp.text = [] →
      (merge_spans (sp :: spans)).1 = (merge_spans spans).1 ∧
      (merge_spans (sp :: spans)).2 = max sp.size (merge_spans spans).2) ∧
    (∀ spans : List Span, spans ≠ [] → (∀ sp ∈ spans, 0 ≤ sp.size) →
      ((merge_spans spans).2 ∈ spans.map Span.size ∧
        ∀ q ∈ spans.map Span.size, q ≤ (merge_spans spans).2)) := by
  refine ⟨rfl, ?_, ?_⟩
  · intro sp spans h
    unfold merge_spans
    rw [merge_go_ws sp spans [] 0 h]
    constructor
    · simp only []
      rw [merge_go_fst spans [] (max 0 sp.size) 0]
    · simp only []
      rw [merge_go_snd, merge_go_snd]
      rw [max_comm (0 : ℚ) sp.size, foldl_max_shift]
  · intro spans hne hnn
    rcases spans with _ | ⟨sp, rest⟩
    · exact absurd rfl hne
    · unfold merge_spans
      simp only []
      rw [merge_go_snd]
      constructor
      · simp only [List.foldl_cons]
        have h0 : max (0 : ℚ) sp.size = sp.size :=
          max_eq_right (hnn sp (by simp))
        rw [h0]
        have := foldl_max_mem rest sp.size
        simp only [List.map_cons, List.mem_cons] at this ⊢
        tauto
      · intro q hq
        simp only [List.foldl_cons]
        simp only [List.map_cons, List.mem_cons] at hq
        rcases hq with h | h
        · subst h
          exact le_trans (le_max_right 0 sp.size) (foldl_max_le rest _).1
        · exact (foldl_max_le rest (max 0 sp.size)).2 q h

theorem C9_witness :
    (stripWs "  ".toList = [] ∧
      (merge_spans [Span.mk "  ".toList 24, Span.mk "hello".toList 10]).1 =
        (merge_spans [Span.mk "hello".toList 10]).1 ∧
      (merge_spans [Span.mk "  ".toList 24, Span.mk "hello".toList 10]).2 =
        max 24 (merge_spans [Span.mk "hello".toList 10]).2) ∧
    ([Span.mk "a".toList 7, Span.mk "b".toList 12] ≠ ([] : List Span) ∧
      (merge_spans [Span.mk "a".toList 7, Span.mk "b".toList 12]).2 ∈
        [Span.mk "a".toList 7, Span.mk "b".toList 12].map Span.size ∧
      ∀ q ∈ [Span.mk "a".toList 7, Span.mk "b".toList 12].map Span.size,
        q ≤ (merge_spans [Span.mk "a".toList 7, Span.mk "b".toList 12]).2) :=
  ⟨⟨by decide,
    C9_thm.2.1 (Span.mk "  ".toList 24) [Span.mk "hello".toList 10] (by decide)⟩,
   ⟨by simp,
    C9_thm.2.2 [Span.mk "a".toList 7, Span.mk "b".toList 12] (by simp)
      (by intro sp hsp; fin_cases hsp <;> norm_num)⟩⟩

end DocProc

namespace DocProc

/-- `sections[key]` as an option. -/
def lookupSec (m : List (List Char × SectionBuf)) (k : List Char) :
    Option SectionBuf :=
  (m.find? (fun e => e.1 = k)).map (fun e => e.2)

theorem lookupSec_appendSec (m : List (List Char × SectionBuf))
    (k e : List Char) :
    lookupSec (appendSec m k e) k =
      (lookupSec m k).map (fun b => ⟨b.text ++ [e], b.start_page⟩) := by
  induction m with
  | nil => rfl
  | cons x xs ih =>
    by_cases hx : x.1 = k
    · simp [lookupSec, appendSec, List.find?_cons, hx]
    · simp only [lookupSec, appendSec, List.map_cons] at ih ⊢
      simp only [if_neg hx]
      rw [List.find?_cons_of_neg _ (by simpa using hx),
        List.find?_cons_of_neg _ (by simpa using hx)]
      exact ih

theorem hasKey_false_lookupSec (m : List (List Char × SectionBuf))
    (k : List Char) (h : hasKey m k = false) : lookupSec m k = none := by
  induction m with
  | nil => rfl
  | cons x xs ih =>
    simp only [hasKey, List.any_cons, Bool.or_eq_false_iff] at h
    obtain ⟨h1, h2⟩ := h
    simp only [lookupSec]
    rw [List.find?_cons_of_neg _ (by simpa using h1)]
    exact ih h2

theorem hasKey_true_lookupSec (m : List (List Char × SectionBuf))
    (k : List Char) (h : hasKey m k = true) :
    ∃ b, lookupSec m k = some b := by
  induction m with
  | nil => simp [hasKey] at h
  | cons x xs ih =>
    simp only [hasKey, List.any_cons, Bool.or_eq_true] at h
    by_cases hx : x.1 = k
    · exact ⟨x.2, by simp [lookupSec, List.find?_cons_of_pos, hx]⟩
    · rcases h with h | h
      · exact absurd (by simpa using h) hx
      · obtain ⟨b, hb⟩ := ih h
        refine ⟨b, ?_⟩
        simp only [lookupSec]
        rw [List.find?_cons_of_neg _ (by simpa using hx)]
        exact hb

theorem lookupSec_insertSec_absent (m : List (List Char × SectionBuf))
    (k : List Char) (p : Nat) (h : hasKey m k = false) :
    lookupSec (insertSec m k p) k = some ⟨[], p⟩ := by
  induction m with
  | nil => simp [lookupSec, insertSec, List.find?_cons_of_pos]
  | cons x xs ih =>
    simp only [hasKey, List.any_cons, Bool.or_eq_false_iff] at h
    obtain ⟨h1, h2⟩ := h
    simp only [insertSec, lookupSec, List.cons_append]
    rw [List.find?_cons_of_neg _ (by simpa using h1)]
    exact ih h2

end DocProc

namespace DocProc

/-- The example header line of the claim. -/
def abstractLine : List Char :=
  "Abstract: Blockchain is a peer-to-peer electronic cash system.".toList

/-- A one-page, one-line document carrying that line. -/
def abstractDoc : DocRec := [[[[Span.mk abstractLine 10]]]]

/-- C2: the claim fails on the code.  The classifier returns the remainder
(`"Blockchain is…"`), but the accumulator ignores it and appends the full
marker-prefixed line, so the alias `"Abstract:"` does appear in the
`abstract` buffer and the buffer's first content is not the bare
remainder. -/
theorem C2_counterexample :
    detect_header_with_content abstractLine 10 10 =
      (some "abstract".toList,
        "Blockchain is a peer-to-peer electronic cash system.".toList) ∧
    (lookupSec (accumulate abstractDoc).sections "abstract".toList).map
        SectionBuf.text =
      some [("[PAGE 1] Abstract: Blockchain is a peer-to-peer " ++
        "electronic cash system.").toList] ∧
    hasSub "abstract".toList (lowerStr (taggedLine 1 abstractLine)) = true ∧
    taggedLine 1 abstractLine ≠
      "[PAGE 1] Blockchain is a peer-to-peer electronic cash system.".toList :=
  ⟨by decide, by decide, by decide, by decide⟩

/-- C2 (amended): on a header line the accumulator switches to the matched
canonical section and appends the full original line, prefixed with the page
marker, to that section's buffer; the remainder computed by the classifier
is discarded, so the inline content is preserved but the alias text is
included with it. -/
theorem C2_amended (page_no : Nat) (page_median : ℚ) (st : AccState)
    (spans : List Span) (h rem : List Char)
    (hsp : spans.isEmpty = false)
    (htext : (stripWs (merge_spans spans).1).isEmpty = false)
    (hdet : detect_header_with_content (stripWs (merge_spans spans).1)
      (merge_spans spans).2 page_median = (some h, rem)) :
    (processLine page_no page_median st spans).current = h ∧
    (lookupSec (processLine page_no page_median st spans).sections h).map
        SectionBuf.text =
      some ((((lookupSec st.sections h).map SectionBuf.text).getD []) ++
        [taggedLine page_no (stripWs (merge_spans spans).1)]) ∧
    taggedLine page_no (stripWs (merge_spans spans).1) =
      markerChars page_no ++ ' ' :: stripWs (merge_spans spans).1 := by
  have hstep : processLine page_no page_median st spans =
      let m :=
        if hasKey st.sections h then st.sections
        else insertSec st.sections h page_no
      ⟨appendSec m h (taggedLine page_no (stripWs (merge_spans spans).1)), h,
        st.extracted + (stripWs (merge_spans spans).1).length⟩ := by
    unfold processLine
    rw [hsp]
    simp only [Bool.false_eq_true, if_false]
    rw [htext]
    simp only [Bool.false_eq_true, if_false, hdet]
  rw [hstep]
  refine ⟨rfl, ?_, rfl⟩
  by_cases hk : hasKey st.sections h
  · simp only [hk, if_true]
    rw [lookupSec_appendSec]
    obtain ⟨b, hb⟩ := hasKey_true_lookupSec st.sections h hk
    rw [hb]
    rfl
  · simp only [hk, Bool.false_eq_true, if_false]
    rw [lookupSec_appendSec]
    rw [lookupSec_insertSec_absent st.sections h page_no (by simpa using hk)]
    rw [hasKey_false_lookupSec st.sections h (by simpa using hk)]
    rfl

theorem C2_amended_witness :
    (([Span.mk abstractLine 10] : List Span).isEmpty = false ∧
      (stripWs (merge_spans [Span.mk abstractLine 10]).1).isEmpty = false ∧
      detect_header_with_content
          (stripWs (merge_spans [Span.mk abstractLine 10]).1)
          (merge_spans [Span.mk abstractLine 10]).2 10 =
        (some "abstract".toList,
          "Blockchain is a peer-to-peer electronic cash system.".toList)) ∧
    ((processLine 1 10 ⟨[("preamble".toList, ⟨[], 1⟩)], "preamble".toList, 0⟩
        [Span.mk abstractLine 10]).current = "abstract".toList ∧
      (lookupSec (processLine 1 10
          ⟨[("preamble".toList, ⟨[], 1⟩)], "preamble".toList, 0⟩
          [Span.mk abstractLine 10]).sections "abstract".toList).map
          SectionBuf.text =
        some ([] ++ [taggedLine 1
          (stripWs (merge_spans [Span.mk abstractLine 10]).1)])) :=
  ⟨⟨by decide, by decide, by decide⟩,
   ⟨(C2_amended 1 10 ⟨[("preamble".toList, ⟨[], 1⟩)], "preamble".toList, 0⟩
      [Span.mk abstractLine 10] "abstract".toList
      "Blockchain is a peer-to-peer electronic cash system.".toList
      (by decide) (by decide) (by decide)).1,
    by
      have hc := (C2_amended 1 10
        ⟨[("preamble".toList, ⟨[], 1⟩)], "preamble".toList, 0⟩
        [Span.mk abstractLine 10] "abstract".toList
        "Blockchain is a peer-to-peer electronic cash system.".toList
        (by decide) (by decide) (by decide)).2.1
      rw [hc]
      decide⟩⟩

end DocProc

namespace DocProc

/-- The first word of `next` is a strict mid-word fragment of `prev`: it is
a proper suffix of `prev` whose preceding character in `prev` is not
whitespace, so gluing it onto the start of `next` splits a word. -/
def partialGlue (prev next : List Char) : Bool :=
  let w := next.takeWhile (fun c => !pyWs c)
  !w.isEmpty && decide (w.length < prev.length) &&
    decide (takeRight w.length prev = w) &&
    (match (prev.take (prev.length - w.length)).getLast? with
     | some c => !pyWs c
     | none => false)

/-- C5: the claim fails on the code.  The fallback splitter's overlap is
`prev[-overlap:].lstrip()`, which strips whitespace but does not trim
forward to a word boundary: with `chunk_size=10`, `overlap=4` the second
chunk starts with `"fgh."`, the mid-word tail of `"abcdefgh."` — a partial
word is glued onto the start of chunk 2. -/
theorem C5_counterexample :
    chunk_text_fallback 10 4 "[PAGE 1] abcdefgh. stuvwxyz.".toList 1 =
      [PChunk.mk "abcdefgh.".toList 1,
       PChunk.mk "fgh. stuvwxyz.".toList 1] ∧
    partialGlue "abcdefgh.".toList "fgh. stuvwxyz.".toList = true :=
  ⟨by decide, by decide⟩

/-- Chunk `y` begins with a suffix of chunk `x` of length at most `ov`,
followed by a space and the base text. -/
def overlapAdj (ov : Nat) (x y : PChunk) : Prop :=
  ∃ w b, y.text = w ++ ' ' :: b ∧ (∃ a, x.text = a ++ w) ∧ w.length ≤ ov

theorem lstripWs_takeRight_suffix (ov : Nat) (prev : List Char) :
    (∃ a, prev = a ++ lstripWs (takeRight ov prev)) ∧
    (lstripWs (takeRight ov prev)).length ≤ ov := by
  constructor
  · refine ⟨prev.take (prev.length - ov) ++
      (takeRight ov prev).takeWhile pyWs, ?_⟩
    rw [List.append_assoc]
    unfold lstripWs
    rw [List.takeWhile_append_dropWhile]
    unfold takeRight
    rw [List.take_append_drop]
  · calc (lstripWs (takeRight ov prev)).length
        ≤ (takeRight ov prev).length :=
          (List.dropWhile_sublist pyWs).length_le
      _ ≤ ov := by
          unfold takeRight
          simp only [List.length_drop]
          omega

theorem fallbackOverlap_chain (ov : Nat) (rest : List PChunk) :
    ∀ prevc : PChunk,
      List.Chain' (overlapAdj ov)
        (prevc :: fallbackOverlap ov prevc.text rest) := by
  induction rest with
  | nil => intro prevc; simp [fallbackOverlap]
  | cons c rs ih =>
    intro prevc
    unfold fallbackOverlap
    rw [List.chain'_cons]
    constructor
    · refine ⟨lstripWs (takeRight ov prevc.text), c.text, rfl, ?_,
        (lstripWs_takeRight_suffix ov prevc.text).2⟩
      obtain ⟨a, ha⟩ := (lstripWs_takeRight_suffix ov prevc.text).1
      exact ⟨a, ha⟩
    · exact ih ⟨lstripWs (takeRight ov prevc.text) ++ ' ' :: c.text, c.page⟩

theorem applyOverlapModel_getD (ov : Nat) (ps : List (List Char)) (i : Nat)
    (h : i + 1 < ps.length) :
    (applyOverlapModel ov ps).getD (i + 1) [] =
      wsTailPart ov (ps.getD i []) ++ ps.getD (i + 1) [] := by
  rcases ps with _ | ⟨p0, rest⟩
  · simp at h
  · simp only [applyOverlapModel]
    have haux : ∀ (rs : List (List Char)) (prev : List Char) (j : Nat),
        j < rs.length →
        (applyOverlapModel.go ov prev rs).getD j [] =
          wsTailPart ov ((prev :: rs).getD j []) ++ rs.getD j [] := by
      intro rs
      induction rs with
      | nil => intro prev j hj; simp at hj
      | cons x xs ih2 =>
        intro prev j hj
        rcases j with _ | j
        · simp [applyOverlapModel.go]
        · simp only [applyOverlapModel.go, List.getD_cons_succ]
          exact ih2 x j (by simpa using hj)
    simp only [List.length_cons] at h
    simp only [List.getD_cons_succ]
    exact haux rest p0 i (by omega)

theorem wsTailPart_aligned (ov : Nat) (prev : List Char) :
    (∃ a, prev = a ++ wsTailPart ov prev) ∧
    (wsTailPart ov prev).length ≤ ov ∧
    (wsTailPart ov prev = prev ∨ wsTailPart ov prev = [] ∨
      pyWs ((wsTailPart ov prev).headD 'x') = true ∨
      (∃ a, prev = a ++ wsTailPart ov prev ∧ a ≠ [] ∧
        pyWs (a.getLast?.getD 'x') = true)) := by
  unfold wsTailPart
  by_cases h1 : prev.length ≤ ov
  · simp only [if_pos h1]
    exact ⟨⟨[], rfl⟩, h1, Or.inl trivial⟩
  · push_neg at h1
    simp only [not_le.mpr h1, if_false]
    have hsfx : prev = prev.take (prev.length - ov) ++ takeRight ov prev := by
      unfold takeRight
      rw [List.take_append_drop]
    have hlen : (takeRight ov prev).length ≤ ov := by
      unfold takeRight
      simp only [List.length_drop]
      omega
    by_cases h2 : pyWs ((prev.drop (prev.length - ov - 1)).headD ' ') = true
    · simp only [h2, if_true]
      refine ⟨⟨prev.take (prev.length - ov), hsfx⟩, hlen, ?_⟩
      refine Or.inr (Or.inr (Or.inr
        ⟨prev.take (prev.length - ov), hsfx, ?_, ?_⟩))
      · intro hnil
        have hl := congrArg List.length hnil
        simp only [List.length_take, List.length_nil] at hl
        omega
      · have hidx : prev.length - ov - 1 < prev.length := by omega
        have hdropc := List.drop_eq_getElem_cons (l := prev) hidx
        rw [hdropc] at h2
        simp only [List.headD_cons] at h2
        have hlast : (prev.take (prev.length - ov)).getLast? =
            some prev[prev.length - ov - 1] := by
          rw [List.getLast?_eq_getElem?]
          have hl2 : (prev.take (prev.length - ov)).length =
              prev.length - ov := by
            simp only [List.length_take]
            omega
          rw [hl2, List.getElem?_take_of_lt (by omega),
            List.getElem?_eq_getElem hidx]
        rw [hlast]
        simpa using h2
    · have h2b : pyWs ((prev.drop (prev.length - ov - 1)).headD ' ') = false := by
        simpa using h2
      simp only [h2b, Bool.false_eq_true, if_false]
      set t := takeRight ov prev with ht
      refine ⟨?_, ?_, ?_⟩
      · refine ⟨prev.take (prev.length - ov) ++ t.takeWhile (fun c => !pyWs c), ?_⟩
        rw [List.append_assoc, List.takeWhile_append_dropWhile]
        exact hsfx
      · exact le_trans (List.dropWhile_sublist _).length_le hlen
      · rcases hw : t.dropWhile (fun c => !pyWs c) with _ | ⟨c0, cs⟩
        · exact Or.inr (Or.inl rfl)
        · refine Or.inr (Or.inr (Or.inl ?_))
          have h4 : (List.dropWhile (fun c => !pyWs c) t).head? = some c0 := by
            rw [hw]
            rfl
          have h5 := List.head?_dropWhile_not (fun c => !pyWs c) t
          rw [h4] at h5
          simp only [List.headD_cons]
          simpa using h5

end DocProc

namespace DocProc

/-- The final overlap stage of `_chunk_text_fallback`, abstracted over the
accumulated chunk list. -/
def fallbackFinal (ov : Nat) (chunks : List PChunk) : List PChunk :=
  if 0 < ov && 1 < chunks.length then
    match chunks with
    | [] => []
    | c :: rest => c :: fallbackOverlap ov c.text rest
  else chunks

theorem fallback_final_chain (ov : Nat) (hov : 0 < ov)
    (chunks : List PChunk) :
    List.Chain' (overlapAdj ov) (fallbackFinal ov chunks) := by
  unfold fallbackFinal
  by_cases h : (0 < ov && 1 < chunks.length) = true
  · rw [if_pos h]
    rcases chunks with _ | ⟨c, rest⟩
    · simp
    · exact fallbackOverlap_chain ov rest c
  · rw [if_neg h]
    simp only [Bool.and_eq_true, decide_eq_true_eq, not_and] at h
    have hlen : chunks.length ≤ 1 := by
      by_contra hgt
      push_neg at hgt
      exact absurd (by simpa using hgt) (by simpa using h hov)
    rcases chunks with _ | ⟨c, rest⟩
    · simp
    · rcases rest with _ | ⟨d, rest2⟩
      · simp
      · simp at hlen

/-- C5 (amended): on the fallback path every chunk after the first begins
with a suffix of the previous emitted chunk bounded by the configured
overlap, followed by a space and the base text — but the suffix is only
whitespace-stripped, not trimmed to a word boundary, so it may start inside
a word (the counterexample).  On the spec-modelled cascade path, each piece
after the first is prefixed with `wsTailPart` of its predecessor, which is a
suffix of the predecessor bounded by the overlap and word-aligned (the
whole predecessor, empty, starting with whitespace, or preceded by
whitespace). -/
theorem C5_amended :
    (∀ (chunk_size overlap : Nat) (text : List Char) (start : Nat),
      0 < overlap →
      List.Chain' (overlapAdj overlap)
        (chunk_text_fallback chunk_size overlap text start)) ∧
    (∀ (overlap : Nat) (ps : List (List Char)) (i : Nat), i + 1 < ps.length →
      (applyOverlapModel overlap ps).getD (i + 1) [] =
        wsTailPart overlap (ps.getD i []) ++ ps.getD (i + 1) []) ∧
    (∀ (overlap : Nat) (prev : List Char),
      (∃ a, prev = a ++ wsTailPart overlap prev) ∧
      (wsTailPart overlap prev).length ≤ overlap ∧
      (wsTailPart overlap prev = prev ∨ wsTailPart overlap prev = [] ∨
        pyWs ((wsTailPart overlap prev).headD 'x') = true ∨
        (∃ a, prev = a ++ wsTailPart overlap prev ∧ a ≠ [] ∧
          pyWs (a.getLast?.getD 'x') = true))) := by
  refine ⟨?_, applyOverlapModel_getD, wsTailPart_aligned⟩
  intro chunk_size overlap text start hov
  unfold chunk_text_fallback
  exact fallback_final_chain overlap hov _

theorem C5_amended_witness :
    0 < 4 ∧
    List.Chain' (overlapAdj 4)
      (chunk_text_fallback 10 4 "[PAGE 1] abcdefgh. stuvwxyz.".toList 1) ∧
    (0 + 1 < ([ "ab c".toList, "de".toList ] : List (List Char)).length ∧
      (applyOverlapModel 1 ["ab c".toList, "de".toList]).getD 1 [] =
        wsTailPart 1 "ab c".toList ++ "de".toList) :=
  ⟨by decide,
   C5_amended.1 10 4 "[PAGE 1] abcdefgh. stuvwxyz.".toList 1 (by decide),
   by decide,
   C5_amended.2.1 1 ["ab c".toList, "de".toList] 0 (by decide)⟩

end DocProc

namespace DocProc

theorem stripWs_length_le (l : List Char) : (stripWs l).length ≤ l.length := by
  unfold stripWs
  rw [List.length_reverse]
  calc ((l.dropWhile pyWs).reverse.dropWhile pyWs).length
      ≤ (l.dropWhile pyWs).reverse.length :=
        (List.dropWhile_sublist pyWs).length_le
    _ = (l.dropWhile pyWs).length := List.length_reverse _
    _ ≤ l.length := (List.dropWhile_sublist pyWs).length_le

theorem fallbackAccum_bound (cs : Nat) (pp : List (Nat × Nat)) (sp : Nat) :
    ∀ (sentences : List (List Char)), (∀ s ∈ sentences, s.length ≤ cs) →
    ∀ (chunks : List PChunk) (current : List Char) (off : Nat),
      (∀ c ∈ chunks, c.text.length ≤ cs + 1) → current.length ≤ cs + 1 →
      (∀ c ∈ (fallbackAccum cs pp sp (chunks, current, off) sentences).1,
        c.text.length ≤ cs + 1) ∧
      (fallbackAccum cs pp sp (chunks, current, off) sentences).2.1.length
        ≤ cs + 1 := by
  intro sentences
  induction sentences with
  | nil =>
    intro _ chunks current off hch hcur
    exact ⟨hch, hcur⟩
  | cons s rest ih =>
    intro hs chunks current off hch hcur
    have hslen : s.length ≤ cs := hs s (by simp)
    have hrest : ∀ t ∈ rest, t.length ≤ cs := fun t ht => hs t (by simp [ht])
    unfold fallbackAccum
    by_cases hcond : (cs < current.length + s.length && !current.isEmpty) = true
    · rw [hcond]
      simp only [if_true]
      refine ih hrest _ _ _ ?_ (by omega)
      intro c hc
      rcases List.mem_append.mp hc with h | h
      · exact hch c h
      · simp only [List.mem_singleton] at h
        subst h
        exact le_trans (stripWs_length_le current) hcur
    · rw [Bool.not_eq_true] at hcond
      rw [hcond]
      simp only [Bool.false_eq_true, if_false]
      refine ih hrest _ _ _ hch ?_
      by_cases hemp : current.isEmpty
      · simp only [hemp, if_true]
        omega
      · simp only [hemp, Bool.false_eq_true, if_false]
        simp only [Bool.and_eq_false_iff, Bool.not_eq_false] at hcond
        rcases hcond with h | h
        · have hle : current.length + s.length ≤ cs := by
            simpa using h
          calc (stripWs (current ++ ' ' :: s)).length
              ≤ (current ++ ' ' :: s).length := stripWs_length_le _
            _ = current.length + s.length + 1 := by simp [List.length_append]; omega
            _ ≤ cs + 1 := by omega
        · exact absurd h (by simpa using hemp)

theorem fallbackOverlap_bound (ov B : Nat) :
    ∀ (rest : List PChunk) (prevText : List Char),
      (∀ c ∈ rest, c.text.length ≤ B) →
      ∀ c ∈ fallbackOverlap ov prevText rest, c.text.length ≤ ov + 1 + B := by
  intro rest
  induction rest with
  | nil => intro _ _ c hc; simp [fallbackOverlap] at hc
  | cons x xs ih =>
    intro prevText hb c hc
    unfold fallbackOverlap at hc
    rcases List.mem_cons.mp hc with h | h
    · subst h
      simp only [List.length_append, List.length_cons]
      have h1 := (lstripWs_takeRight_suffix ov prevText).2
      have h2 : x.text.length ≤ B := hb x (by simp)
      omega
    · exact ih _ (fun d hd => hb d (by simp [hd])) c h

theorem recSplit_bound (cs : Nat) (hcs : 1 ≤ cs) :
    ∀ (seps : List (List Char)) (s : List Char),
      ∀ p ∈ recSplit seps cs s, p.length ≤ cs := by
  intro seps
  induction seps with
  | nil =>
    intro s p hp
    unfold recSplit at hp
    by_cases h : s.length ≤ cs
    · simp only [h, if_true, List.mem_singleton] at hp
      subst hp
      exact h
    · simp only [h, if_false, List.mem_map] at hp
      obtain ⟨c, _, hc⟩ := hp
      subst hc
      simpa using hcs
  | cons sep rest ih =>
    intro s p hp
    unfold recSplit at hp
    by_cases h : s.length ≤ cs
    · simp only [h, if_true, List.mem_singleton] at hp
      subst hp
      exact h
    · simp only [h, if_false] at hp
      by_cases hemp : sep.isEmpty
      · simp only [hemp, if_true, List.mem_map] at hp
        obtain ⟨c, _, hc⟩ := hp
        subst hc
        simpa using hcs
      · simp only [hemp, Bool.false_eq_true, if_false, List.mem_flatten] at hp
        obtain ⟨l, hl, hpl⟩ := hp
        rw [List.mem_map] at hl
        obtain ⟨q, _, hq⟩ := hl
        subst hq
        by_cases hql : q.length ≤ cs
        · simp only [hql, if_true, List.mem_singleton] at hpl
          subst hpl
          exact hql
        · simp only [hql, if_false] at hpl
          exact ih q p hpl

theorem applyOverlapModel_bound (ov B : Nat) :
    ∀ (ps : List (List Char)), (∀ p ∈ ps, p.length ≤ B) →
      ∀ c ∈ applyOverlapModel ov ps, c.length ≤ ov + B := by
  have haux : ∀ (rs : List (List Char)) (prev : List Char),
      (∀ p ∈ rs, p.length ≤ B) →
      ∀ c ∈ applyOverlapModel.go ov prev rs, c.length ≤ ov + B := by
    intro rs
    induction rs with
    | nil => intro _ _ c hc; simp [applyOverlapModel.go] at hc
    | cons x xs ih =>
      intro prev hb c hc
      unfold applyOverlapModel.go at hc
      rcases List.mem_cons.mp hc with hh | hh
      · subst hh
        simp only [List.length_append]
        have h1 := (wsTailPart_aligned ov prev).2.1
        have h2 : x.length ≤ B := hb x (by simp)
        omega
      · exact ih x (fun d hd => hb d (by simp [hd])) c hh
  intro ps
  cases ps with
  | nil => intro _ c hc; simp [applyOverlapModel] at hc
  | cons p0 rest =>
    intro h c hc
    simp only [applyOverlapModel] at hc
    rcases List.mem_cons.mp hc with hh | hh
    · subst hh
      have := h c (by simp)
      omega
    · exact haux rest p0 (fun d hd => h d (by simp [hd])) c hh

theorem chunkPages_text_mem (pp : List (Nat × Nat)) (sp : Nat) :
    ∀ (ts : List (List Char)) (off : Nat) (c : PChunk),
      c ∈ chunkPages pp sp off ts → c.text ∈ ts := by
  intro ts
  induction ts with
  | nil => intro off c hc; simp [chunkPages] at hc
  | cons t rest ih =>
    intro off c hc
    unfold chunkPages at hc
    rcases List.mem_cons.mp hc with h | h
    · subst h; simp
    · exact List.mem_cons_of_mem _ (ih _ c h)

end DocProc

namespace DocProc

theorem fallback_final_bound (ov B : Nat) (chunks : List PChunk)
    (hb : ∀ d ∈ chunks, d.text.length ≤ B) :
    ∀ c ∈ fallbackFinal ov chunks, c.text.length ≤ ov + 1 + B := by
  intro c hc
  unfold fallbackFinal at hc
  by_cases hcond : (0 < ov && 1 < chunks.length) = true
  · rw [if_pos hcond] at hc
    rcases chunks with _ | ⟨c0, rest⟩
    · simp at hc
    · rcases List.mem_cons.mp hc with h | h
      · subst h
        have := hb c (by simp)
        omega
      · exact fallbackOverlap_bound ov B rest c0.text
          (fun d hd => hb d (by simp [hd])) c h
  · rw [if_neg hcond] at hc
    have := hb c hc
    omega

theorem chunk_text_fallback_bound (cs ov : Nat) (text : List Char)
    (start : Nat)
    (hsent : ∀ s ∈ splitSentences (stripWs (collapseWs (pageWalk 0 text).2)),
      s.length ≤ cs) :
    ∀ c ∈ chunk_text_fallback cs ov text start,
      c.text.length ≤ cs + ov + 2 := by
  have hacc := fallbackAccum_bound cs (pageWalk 0 text).1 start
    (splitSentences (stripWs (collapseWs (pageWalk 0 text).2))) hsent [] [] 0
    (by simp) (by simp)
  intro c hc
  unfold chunk_text_fallback at hc
  simp only [] at hc
  set r := fallbackAccum cs (pageWalk 0 text).1 start ([], [], 0)
    (splitSentences (stripWs (collapseWs (pageWalk 0 text).2))) with hr
  have hbF : ∀ d ∈ (if r.2.1.isEmpty then r.1
      else r.1 ++ [PChunk.mk (stripWs r.2.1)
        (pickPage (pageWalk 0 text).1 start r.2.2)]),
      d.text.length ≤ cs + 1 := by
    intro d hd
    by_cases hemp : r.2.1.isEmpty
    · rw [if_pos hemp] at hd
      exact hacc.1 d hd
    · rw [if_neg hemp] at hd
      rcases List.mem_append.mp hd with h | h
      · exact hacc.1 d h
      · simp only [List.mem_singleton] at h
        subst h
        exact le_trans (stripWs_length_le _) hacc.2
  have hfin := fallback_final_bound ov (cs + 1)
    (if r.2.1.isEmpty then r.1
      else r.1 ++ [PChunk.mk (stripWs r.2.1)
        (pickPage (pageWalk 0 text).1 start r.2.2)]) hbF c hc
  omega

theorem chunk_text_bound (cs ov : Nat) (s : List Char) (start : Nat)
    (hcs : 1 ≤ cs) :
    ∀ c ∈ chunk_text cs ov s start, c.text.length ≤ cs + ov := by
  intro c hc
  unfold chunk_text at hc
  have htext := chunkPages_text_mem (pageWalk 0 s).1 start _ 0 c hc
  rw [List.mem_filter] at htext
  obtain ⟨hmem, _⟩ := htext
  rw [List.mem_map] at hmem
  obtain ⟨raw, hraw, hstrip⟩ := hmem
  have hb : raw.length ≤ ov + cs := by
    refine applyOverlapModel_bound ov cs
      (recSplit separators cs (stripWs (collapseWs (pageWalk 0 s).2))) ?_ raw hraw
    exact recSplit_bound cs hcs separators _
  rw [← hstrip]
  have := stripWs_length_le raw
  omega

/-- A section text whose sentences each fit the bound yet whose second
emitted chunk exceeds `chunk_size + overlap`. -/
def overflowText : List Char := "[PAGE 1] abcd. fgh. stuvw. xyz.".toList

/-- C6: the claim fails on the code.  With `chunk_size=10`, `overlap=3`, no
sentence longer than 10, the fallback splitter emits a chunk of length 15 >
10 + 3: the accumulator may close a chunk at `chunk_size + 1` (a join adds a
space) and the overlap prepend adds `overlap + 1` more. -/
theorem C6_counterexample :
    (chunk_text_fallback 10 3 overflowText 1).map (fun c => c.text.length) =
      [10, 15] ∧
    (splitSentences (stripWs (collapseWs (pageWalk 0 overflowText).2))).all
      (fun s => decide (s.length ≤ 10)) = true ∧
    10 + 3 < 15 :=
  ⟨by decide, by decide, by decide⟩

/-- C6 (amended): on the fallback path, when every sentence fits the
configured chunk size, every emitted chunk is bounded by
`chunk_size + overlap + 2` (the two extra characters are the join spaces the
claim's bound omits); on the spec-modelled cascade path every emitted chunk
is bounded by `chunk_size + overlap`. -/
theorem C6_amended :
    (∀ (chunk_size overlap : Nat) (text : List Char) (start : Nat),
      (∀ s ∈ splitSentences (stripWs (collapseWs (pageWalk 0 text).2)),
        s.length ≤ chunk_size) →
      ∀ c ∈ chunk_text_fallback chunk_size overlap text start,
        c.text.length ≤ chunk_size + overlap + 2) ∧
    (∀ (chunk_size overlap : Nat) (s : List Char) (start : Nat),
      1 ≤ chunk_size →
      ∀ c ∈ chunk_text chunk_size overlap s start,
        c.text.length ≤ chunk_size + overlap) :=
  ⟨chunk_text_fallback_bound, chunk_text_bound⟩

theorem C6_amended_witness :
    ((∀ s ∈ splitSentences (stripWs (collapseWs (pageWalk 0 overflowText).2)),
        s.length ≤ 10) ∧
      ∀ c ∈ chunk_text_fallback 10 3 overflowText 1,
        c.text.length ≤ 10 + 3 + 2) ∧
    (1 ≤ 10 ∧
      ∀ c ∈ chunk_text 10 3 overflowText 1, c.text.length ≤ 10 + 3) :=
  ⟨⟨by decide, C6_amended.1 10 3 overflowText 1 (by decide)⟩,
   ⟨by decide, C6_amended.2 10 3 overflowText 1 (by decide)⟩⟩

/-- `Rat.floor q` is at most any integer upper bound of `q`. -/
theorem ratFloor_le (q : ℚ) (B : ℤ) (h : q ≤ (B : ℚ)) : Rat.floor q ≤ B := by
  by_contra hc
  push_neg at hc
  have h1 : B + 1 ≤ Rat.floor q := Int.lt_iff_add_one_le.mp hc
  have h2 : ((B + 1 : ℤ) : ℚ) ≤ q := Rat.le_floor.mp h1
  push_cast at h2
  linarith

/-- Rounding half to even never exceeds an integer upper bound of the
argument. -/
theorem roundHalfEven_le (q : ℚ) (B : ℤ) (h : q ≤ (B : ℚ)) :
    roundHalfEven q ≤ B := by
  have hfl : q.floor ≤ B := ratFloor_le q B h
  have key : q.floor < B ∨ q - (q.floor : ℚ) < 1/2 := by
    rcases lt_or_eq_of_le hfl with h1 | h1
    · exact Or.inl h1
    · right
      have hq : ((q.floor : ℤ) : ℚ) = (B : ℚ) := by exact_mod_cast h1
      have : q - (q.floor : ℚ) ≤ 0 := by rw [hq]; linarith
      linarith
  simp only [roundHalfEven]
  split_ifs with h1 h2 h3
  · exact hfl
  · rcases key with hk | hk
    · omega
    · exact absurd hk h1
  · exact hfl
  · rcases key with hk | hk
    · omega
    · exact absurd hk h1

/-- `round2` never exceeds an integer upper bound of its argument. -/
theorem round2_le (q : ℚ) (B : ℤ) (h : q ≤ (B : ℚ)) : round2 q ≤ (B : ℚ) := by
  unfold round2
  have h100 : q * 100 ≤ ((B * 100 : ℤ) : ℚ) := by
    push_cast
    nlinarith
  have hr := roundHalfEven_le (q * 100) (B * 100) h100
  rw [div_le_iff₀ (by norm_num : (0:ℚ) < 100)]
  exact_mod_cast hr

/-- Each assembly step adds the joined (marker-bearing) length of its
section to the running total, whether the section is kept or dropped. -/
theorem asmStep_total (cs ov : Nat)
    (acc : List (List Char × SectionOut) × List (List Char × List Char) × Nat)
    (nc : List Char × SectionBuf) :
    (asmStep cs ov acc nc).2.2 = acc.2.2 + (joinSpace nc.2.text).length := by
  simp only [asmStep]
  split
  · rfl
  · rfl

/-- Folding `asmStep` accumulates the sum of the joined section lengths. -/
theorem asm_fold_total (cs ov : Nat) (secs : List (List Char × SectionBuf)) :
    ∀ init, (secs.foldl (asmStep cs ov) init).2.2
      = init.2.2 + (secs.map (fun nc => (joinSpace nc.2.text).length)).sum := by
  induction secs with
  | nil => intro init; simp
  | cons a l ih =>
    intro init
    rw [List.foldl_cons, ih, asmStep_total]
    simp only [List.map_cons, List.sum_cons]
    omega

/-- `total_text_in_sections` is the sum, over every accumulated section
(kept or dropped), of the length of its space-joined marker-prefixed
buffer. -/
theorem assembleSections_total (cs ov : Nat)
    (secs : List (List Char × SectionBuf)) :
    (assembleSections cs ov secs).2.2
      = (secs.map (fun nc => (joinSpace nc.2.text).length)).sum := by
  unfold assembleSections
  rw [asm_fold_total]
  simp

/-- The reported data-loss percentage can never exceed 100 (the retained
count is nonnegative). -/
theorem dlp_le_100 (e s : Nat) (he : 0 < e) :
    round2 ((((e : ℚ) - (s : ℚ)) / (e : ℚ)) * 100) ≤ 100 := by
  have he' : (0:ℚ) < (e : ℚ) := by exact_mod_cast he
  have hs : (0:ℚ) ≤ (s : ℚ) := by positivity
  have h1 : ((e : ℚ) - (s : ℚ)) / (e : ℚ) ≤ 1 := by
    rw [div_le_one he']
    linarith
  have h2 : (((e : ℚ) - (s : ℚ)) / (e : ℚ)) * 100 ≤ ((100 : ℤ) : ℚ) := by
    push_cast
    nlinarith
  have h3 := round2_le _ 100 h2
  simpa using h3

/-- A single 75-character body line; with its 9-character `[PAGE 1] `
marker, the joined preamble buffer is 84 characters long. -/
def c7line : List Char := List.replicate 75 'a'

def c7doc : DocRec := [[[[Span.mk c7line 10]]]]

/-- C7: the claim says `data_loss_percentage` is the fraction of extracted
characters never retained in a section, so it lies between 0 and 100.
Counterexample: a one-page document with a single 75-character line yields
`total_text_in_sections = 84` — the count includes the 9-character page
marker glued before the line — and a data-loss percentage of −12, which is
negative. -/
theorem C7_counterexample :
    (process_pdf_sync 1000 200 [] [] c7doc).stats.total_text_extracted = 75 ∧
    (process_pdf_sync 1000 200 [] [] c7doc).stats.total_text_in_sections = 84 ∧
    (process_pdf_sync 1000 200 [] [] c7doc).stats.data_loss_percentage < 0 := by
  with_unfolding_all decide

/-- C7 (amended): for a document with at least one extracted character, the
reported `data_loss_percentage` is `round((extracted − in_sections) /
extracted × 100, 2)`, where `in_sections` is the total length of the
space-joined section buffers — marker prefixes included, dropped sections
counted too.  The percentage never exceeds 100 but can be negative, because
the marker text inflates `in_sections` beyond what was extracted. -/
theorem C7_amended (cs ov : Nat) (title author : List Char) (doc : DocRec)
    (h : 0 < (accumulate doc).extracted) :
    (process_pdf_sync cs ov title author doc).stats.total_text_extracted
      = (accumulate doc).extracted ∧
    (process_pdf_sync cs ov title author doc).stats.total_text_in_sections
      = (((accumulate doc).sections.map
          (fun nc => (joinSpace nc.2.text).length)).sum) ∧
    (process_pdf_sync cs ov title author doc).stats.data_loss_percentage
      = round2 (((((accumulate doc).extracted : ℚ)
            - (((process_pdf_sync cs ov title author doc).stats.total_text_in_sections : Nat) : ℚ))
          / ((accumulate doc).extracted : ℚ)) * 100) ∧
    (process_pdf_sync cs ov title author doc).stats.data_loss_percentage
      ≤ 100 := by
  have hd : (process_pdf_sync cs ov title author doc).stats.data_loss_percentage
      = if 0 < (accumulate doc).extracted then
          round2 (((((accumulate doc).extracted : ℚ)
              - (((assembleSections cs ov (accumulate doc).sections).2.2 : Nat) : ℚ))
            / ((accumulate doc).extracted : ℚ)) * 100)
        else 0 := rfl
  refine ⟨rfl, ?_, ?_, ?_⟩
  · exact assembleSections_total cs ov (accumulate doc).sections
  · rw [hd, if_pos h]
    rfl
  · rw [hd, if_pos h]
    exact dlp_le_100 _ _ h

theorem C7_amended_witness :
    0 < (accumulate c7doc).extracted ∧
    (process_pdf_sync 1000 200 [] [] c7doc).stats.data_loss_percentage
      ≤ 100 :=
  ⟨by decide, (C7_amended 1000 200 [] [] c7doc (by decide)).2.2.2⟩

/-- A line whose own text starts with a page-marker-shaped prefix
`[PAGE 9] `: the wire convention offers no escaping, so the line is
indistinguishable from a real marker. -/
def c8line : List Char := "[PAGE 9] ".toList ++ List.replicate 66 'z'

def c8doc : DocRec := [[[[Span.mk c8line 10]]]]

/-- A line containing the bare text `[PAGE leak `: it matches no complete
marker, so the marker-removal pass leaves it in the chunk text. -/
def c4line : List Char := "[PAGE leak ".toList ++ List.replicate 60 'z'

def c4doc : DocRec := [[[[Span.mk c4line 10]]]]

/-- C8: the claim says every chunk's page lies between the section's
`start_page` and the document's page count.  Counterexample: a one-page
document whose single line begins with the literal text `[PAGE 9] ` — the
embedded fake marker is parsed back by `_chunk_text`, whose adjusted
position `9 - 1*10 = -1 ≤ 0` lets it win, and the chunk is attributed to
page 9 of a 1-page document. -/
theorem C8_counterexample :
    (process_pdf_sync 1000 200 [] [] c8doc).metadata.page_count = 1 ∧
    ((process_pdf_sync 1000 200 [] [] c8doc).sections.any (fun ns =>
      (ns.2.chunks_with_pages.getD []).any (fun c =>
        (process_pdf_sync 1000 200 [] [] c8doc).metadata.page_count
          < c.page))) = true := by
  decide

/-- C4: the claim says the substring `[PAGE` never occurs in emitted chunk
text.  Counterexample: a line containing the bare text `[PAGE leak ` is not
a complete marker (`\[PAGE (\d+)\]` does not match), so
`_page_pattern.sub('', ...)` leaves it untouched and the emitted chunk text
contains `[PAGE`. -/
theorem C4_counterexample :
    ((process_pdf_sync 1000 200 [] [] c4doc).sections.any (fun ns =>
      (ns.2.chunks_with_pages.getD []).any (fun c =>
        hasSub pagePat c.text))) = true := by
  decide

theorem begins_append_left (p a b : List Char)
    (h : begins p (a ++ b) = true) (hl : p.length ≤ a.length) :
    begins p a = true := by
  induction p generalizing a b with
  | nil => rfl
  | cons x p' ih =>
    cases a with
    | nil => simp at hl
    | cons c a' =>
      simp only [List.cons_append, begins, Bool.and_eq_true] at h
      simp only [begins, Bool.and_eq_true]
      refine ⟨h.1, ih a' b h.2 ?_⟩
      simp only [List.length_cons] at hl
      omega

theorem begins_length_le (p a : List Char) (h : begins p a = true) :
    p.length ≤ a.length := by
  induction p generalizing a with
  | nil => simp
  | cons x p' ih =>
    cases a with
    | nil => simp [begins] at h
    | cons c a' =>
      simp only [begins, Bool.and_eq_true] at h
      have := ih a' h.2
      simp only [List.length_cons]
      omega

theorem begins_append_drop (p a b : List Char)
    (h : begins p (a ++ b) = true) :
    begins (p.drop a.length) b = true := by
  induction a generalizing p with
  | nil => simpa using h
  | cons c a' ih =>
    cases p with
    | nil => rfl
    | cons x p' =>
      simp only [List.cons_append, begins, Bool.and_eq_true] at h
      exact ih p' h.2

theorem begins_mono_append (p l t : List Char) (h : begins p l = true) :
    begins p (l ++ t) = true := by
  induction p generalizing l with
  | nil => rfl
  | cons x p' ih =>
    cases l with
    | nil => simp [begins] at h
    | cons c l' =>
      simp only [begins, Bool.and_eq_true] at h
      simp only [List.cons_append, begins, Bool.and_eq_true]
      exact ⟨h.1, ih l' h.2⟩

theorem begins_of_begins_append (p q l : List Char)
    (h : begins (p ++ q) l = true) : begins p l = true := by
  induction p generalizing l with
  | nil => rfl
  | cons x p' ih =>
    cases l with
    | nil => simp [begins] at h
    | cons c l' =>
      simp only [List.cons_append, begins, Bool.and_eq_true] at h
      simp only [begins, Bool.and_eq_true]
      exact ⟨h.1, ih l' h.2⟩

theorem hasSub_false_begins (pat u : List Char)
    (h : hasSub pat u = false) : begins pat u = false := by
  cases u with
  | nil => exact h
  | cons c cs =>
    unfold hasSub at h
    exact (Bool.or_eq_false_iff.mp h).1

theorem hasSub_tail (pat : List Char) (c : Char) (cs : List Char)
    (h : hasSub pat (c :: cs) = false) : hasSub pat cs = false := by
  unfold hasSub at h
  exact (Bool.or_eq_false_iff.mp h).2

theorem hasSub_of_begins (pat s : List Char) (h : begins pat s = true) :
    hasSub pat s = true := by
  cases s with
  | nil => exact h
  | cons c cs =>
    unfold hasSub
    rw [h]
    rfl

theorem hasSub_cons_of_tail (pat : List Char) (c : Char) (cs : List Char)
    (h : hasSub pat cs = true) : hasSub pat (c :: cs) = true := by
  unfold hasSub
  rw [h]
  simp

theorem hasSub_append_cases (pat a b : List Char)
    (h : hasSub pat (a ++ b) = true) :
    hasSub pat a = true ∨ hasSub pat b = true ∨
      ∃ s, s ≠ [] ∧ s.length < pat.length ∧ (∃ t, a = t ++ s) ∧
        begins pat (s ++ b) = true := by
  induction a with
  | nil => exact Or.inr (Or.inl (by simpa using h))
  | cons c a' ih =>
    rw [List.cons_append] at h
    unfold hasSub at h
    rcases Bool.or_eq_true_iff.mp h with hbeg | hsub
    · by_cases hl : pat.length ≤ (c :: a').length
      · left
        exact hasSub_of_begins _ _
          (begins_append_left pat (c :: a') b (by simpa using hbeg) hl)
      · right; right
        exact ⟨c :: a', by simp, Nat.lt_of_not_le hl, ⟨[], rfl⟩,
          by simpa using hbeg⟩
    · rcases ih hsub with h1 | h1 | ⟨s, hne, hlen, ⟨t, ht⟩, hbeg⟩
      · exact Or.inl (hasSub_cons_of_tail _ _ _ h1)
      · exact Or.inr (Or.inl h1)
      · exact Or.inr (Or.inr ⟨s, hne, hlen, ⟨c :: t, by rw [ht]; rfl⟩, hbeg⟩)

/-- Characters that cannot continue a straddling occurrence of `[PAGE`. -/
def okRight (h : Char) : Prop := h ≠ 'P' ∧ h ≠ 'A' ∧ h ≠ 'G' ∧ h ≠ 'E'

instance (h : Char) : Decidable (okRight h) := by
  unfold okRight
  infer_instance

theorem begins_pagePat_append_false (s b : List Char)
    (hne : s ≠ []) (hs : begins pagePat s = false)
    (hb : b = [] ∨ ∃ h r, b = h :: r ∧ okRight h) :
    begins pagePat (s ++ b) = false := by
  by_contra hc
  rw [Bool.not_eq_false] at hc
  by_cases hl : 5 ≤ s.length
  · have h1 : begins pagePat s = true :=
      begins_append_left pagePat s b hc (by simpa [pagePat] using hl)
    rw [hs] at h1
    simp at h1
  · have hdrop := begins_append_drop pagePat s b hc
    have h14 : s.length = 1 ∨ s.length = 2 ∨ s.length = 3 ∨ s.length = 4 := by
      have h0 : 0 < s.length := List.length_pos.mpr hne
      omega
    rcases hb with rfl | ⟨h, r, rfl, hP, hA, hG, hE⟩
    · rcases h14 with h1 | h1 | h1 | h1 <;>
        rw [h1] at hdrop <;> simp [pagePat, begins] at hdrop
    · rcases h14 with h1 | h1 | h1 | h1 <;>
        rw [h1] at hdrop <;>
        simp [pagePat, begins, hP.symm, hA.symm, hG.symm, hE.symm] at hdrop

theorem cleanAppend (a b : List Char)
    (ha : hasSub pagePat a = false) (hb : hasSub pagePat b = false)
    (hh : b = [] ∨ ∃ h r, b = h :: r ∧ okRight h) :
    hasSub pagePat (a ++ b) = false := by
  by_contra hc
  rw [Bool.not_eq_false] at hc
  rcases hasSub_append_cases pagePat a b hc with
    h1 | h1 | ⟨s, hne, hlen, ⟨t, ht⟩, hbeg⟩
  · rw [ha] at h1; simp at h1
  · rw [hb] at h1; simp at h1
  · have hs : begins pagePat s = false := by
      cases hq : begins pagePat s
      · rfl
      · have h5 := begins_length_le pagePat s hq
        have h5' : pagePat.length = 5 := rfl
        omega
    have h2 := begins_pagePat_append_false s b hne hs hh
    rw [h2] at hbeg
    simp at hbeg

theorem hasSub_append_l (pat m t : List Char) (h : hasSub pat m = true) :
    hasSub pat (m ++ t) = true := by
  induction m with
  | nil =>
    cases t with
    | nil => exact h
    | cons c cs =>
      have hp : pat = [] := by
        cases pat with
        | nil => rfl
        | cons x xs => simp [hasSub, begins] at h
      subst hp
      simp [hasSub, begins]
  | cons c m' ih =>
    rw [List.cons_append]
    unfold hasSub at h ⊢
    by_cases hq : begins pat (c :: m') = true
    · have h2 := begins_mono_append pat (c :: m') t hq
      rw [List.cons_append] at h2
      rw [h2]
      rfl
    · have hq' : begins pat (c :: m') = false := by
        cases hqq : begins pat (c :: m')
        · rfl
        · exact absurd hqq hq
      rw [hq'] at h
      simp only [Bool.false_or] at h
      rw [ih h]
      simp

theorem hasSub_append_r (pat t m : List Char) (h : hasSub pat m = true) :
    hasSub pat (t ++ m) = true := by
  induction t with
  | nil => simpa using h
  | cons c t' ih =>
    rw [List.cons_append]
    exact hasSub_cons_of_tail _ _ _ ih

theorem clean_within (m s : List Char) (hs : hasSub pagePat s = false)
    (h : m <:+: s) : hasSub pagePat m = false := by
  obtain ⟨a, b, hab⟩ := h
  by_contra hc
  rw [Bool.not_eq_false] at hc
  have h2 := hasSub_append_r pagePat a _ (hasSub_append_l pagePat m b hc)
  rw [show a ++ (m ++ b) = a ++ m ++ b from (List.append_assoc a m b).symm,
    hab, hs] at h2
  simp at h2

theorem parseDigits_append_digit (l : List Char) (c : Char) :
    parseDigits (l ++ [c]) = 10 * parseDigits l + (c.toNat - 48) := by
  unfold parseDigits
  rw [List.foldl_append]
  rfl

theorem natDigitsF_roundtrip :
    ∀ fuel n, n ≤ fuel → parseDigits (natDigitsF fuel n) = n := by
  intro fuel
  induction fuel with
  | zero =>
    intro n hn
    interval_cases n
    rfl
  | succ fuel ih =>
    intro n hn
    unfold natDigitsF
    by_cases h0 : n = 0
    · subst h0
      simp [parseDigits]
    · rw [if_neg h0, parseDigits_append_digit, ih (n / 10) ?_]
      · have hm : n % 10 < 10 := Nat.mod_lt _ (by omega)
        set m := n % 10 with hmdef
        have hc : (Char.ofNat (48 + m)).toNat = 48 + m := by
          interval_cases m <;> decide
        rw [hc]
        omega
      · have h2 : n / 10 < n := Nat.div_lt_self (by omega) (by omega)
        omega

theorem digitsChars_roundtrip (n : Nat) :
    parseDigits (digitsChars n) = n :=
  natDigitsF_roundtrip (n + 1) n (by omega)

theorem natDigitsF_digits :
    ∀ fuel n c, c ∈ natDigitsF fuel n → c.isDigit = true := by
  intro fuel
  induction fuel with
  | zero => intro n c hc; simp [natDigitsF] at hc
  | succ fuel ih =>
    intro n c hc
    unfold natDigitsF at hc
    by_cases h0 : n = 0
    · simp [h0] at hc
    · rw [if_neg h0] at hc
      rcases List.mem_append.mp hc with h1 | h1
      · exact ih _ _ h1
      · simp only [List.mem_singleton] at h1
        subst h1
        have hm : n % 10 < 10 := Nat.mod_lt _ (by omega)
        set m := n % 10 with hmdef
        interval_cases m <;> decide

theorem digitsChars_ne_nil (n : Nat) (hn : 1 ≤ n) : digitsChars n ≠ [] := by
  unfold digitsChars natDigitsF
  rw [if_neg (by omega)]
  simp

theorem takeWhile_digits_append (ds : List Char)
    (hds : ∀ c ∈ ds, c.isDigit = true) (c : Char) (hc : c.isDigit = false)
    (u : List Char) :
    (ds ++ c :: u).takeWhile Char.isDigit = ds := by
  induction ds with
  | nil => simp [List.takeWhile_cons, hc]
  | cons d ds' ih =>
    have hd : d.isDigit = true := hds d (by simp)
    rw [List.cons_append, List.takeWhile_cons, hd]
    simp only [if_true]
    rw [ih (fun e he => hds e (by simp [he]))]

theorem markerChars_length (p : Nat) :
    (markerChars p).length = 7 + (digitsChars p).length := by
  simp [markerChars, pagePat]
  omega

theorem tryMarker_marker (p : Nat) (hp : 1 ≤ p) (u : List Char) :
    tryMarker (markerChars p ++ u)
      = some (p, 6 + (digitsChars p).length + 1, u) := by
  have hshape : markerChars p ++ u
      = (pagePat ++ [' ']) ++ (digitsChars p ++ ']' :: u) := by
    simp [markerChars, List.append_assoc]
  unfold tryMarker
  have hb : begins (pagePat ++ [' ']) (markerChars p ++ u) = true := by
    rw [hshape]
    exact begins_self_append _ _
  rw [hb]
  simp only [if_true]
  have hdrop6 : (markerChars p ++ u).drop 6 = digitsChars p ++ ']' :: u := by
    rw [hshape, show (6 : Nat) = (pagePat ++ [' ']).length from rfl]
    exact List.drop_left _ _
  rw [hdrop6]
  have htw : (digitsChars p ++ ']' :: u).takeWhile Char.isDigit
      = digitsChars p :=
    takeWhile_digits_append _ (fun c hc => natDigitsF_digits _ _ c hc)
      ']' (by decide) u
  rw [htw]
  rw [if_neg (by simpa using digitsChars_ne_nil p hp)]
  rw [List.drop_left]
  simp [digitsChars_roundtrip]

theorem pageWalkF_succ (fuel i : Nat) (c : Char) (rest : List Char) :
    pageWalkF (fuel + 1) i (c :: rest)
      = match tryMarker (c :: rest) with
        | some pkr =>
          ((i, pkr.1) :: (pageWalkF fuel (i + pkr.2.1) pkr.2.2).1,
            (pageWalkF fuel (i + pkr.2.1) pkr.2.2).2)
        | none =>
          ((pageWalkF fuel (i + 1) rest).1,
            c :: (pageWalkF fuel (i + 1) rest).2) := by
  rcases ht : tryMarker (c :: rest) with _ | ⟨p, k, rest'⟩ <;>
    simp only [pageWalkF, ht]

theorem pageWalkF_congr :
    ∀ n (s : List Char), s.length ≤ n →
      ∀ f1 f2 i, s.length ≤ f1 → s.length ≤ f2 →
        pageWalkF f1 i s = pageWalkF f2 i s := by
  intro n
  induction n with
  | zero =>
    intro s hs f1 f2 i h1 h2
    have : s = [] := List.eq_nil_of_length_eq_zero (by omega)
    subst this
    cases f1 <;> cases f2 <;> rfl
  | succ n ih =>
    intro s hs f1 f2 i h1 h2
    cases s with
    | nil => cases f1 <;> cases f2 <;> rfl
    | cons c rest =>
      simp only [List.length_cons] at hs h1 h2
      obtain ⟨f1', rfl⟩ : ∃ f1', f1 = f1' + 1 := ⟨f1 - 1, by omega⟩
      obtain ⟨f2', rfl⟩ : ∃ f2', f2 = f2' + 1 := ⟨f2 - 1, by omega⟩
      rw [pageWalkF_succ f1', pageWalkF_succ f2']
      rcases ht : tryMarker (c :: rest) with _ | ⟨p, k, rest'⟩
      · have hr : rest.length ≤ n := by omega
        rw [ih rest hr f1' f2' (i + 1) (by omega) (by omega)]
      · obtain ⟨hlen, hk⟩ := tryMarker_consumed _ _ _ _ ht
        simp only [List.length_cons] at hlen
        have hr : rest'.length ≤ n := by omega
        show ((i, p) :: (pageWalkF f1' (i + k) rest').1,
            (pageWalkF f1' (i + k) rest').2)
          = ((i, p) :: (pageWalkF f2' (i + k) rest').1,
            (pageWalkF f2' (i + k) rest').2)
        rw [ih rest' hr f1' f2' (i + k) (by omega) (by omega)]

theorem pageWalk_cons_some (c : Char) (rest : List Char) (p k : Nat)
    (r : List Char) (ht : tryMarker (c :: rest) = some (p, k, r)) (i : Nat) :
    pageWalk i (c :: rest)
      = ((i, p) :: (pageWalk (i + k) r).1, (pageWalk (i + k) r).2) := by
  obtain ⟨hlen, hk⟩ := tryMarker_consumed _ _ _ _ ht
  simp only [List.length_cons] at hlen
  unfold pageWalk
  rw [show (c :: rest).length = rest.length + 1 from rfl, pageWalkF_succ, ht]
  show ((i, p) :: (pageWalkF rest.length (i + k) r).1,
      (pageWalkF rest.length (i + k) r).2) = _
  rw [pageWalkF_congr rest.length r (by omega) rest.length r.length (i + k)
    (by omega) le_rfl]

theorem pageWalk_cons_none (c : Char) (rest : List Char)
    (ht : tryMarker (c :: rest) = none) (i : Nat) :
    pageWalk i (c :: rest)
      = ((pageWalk (i + 1) rest).1, c :: (pageWalk (i + 1) rest).2) := by
  unfold pageWalk
  rw [show (c :: rest).length = rest.length + 1 from rfl, pageWalkF_succ, ht]

theorem tryMarker_none_of_begins (l : List Char)
    (h : begins (pagePat ++ [' ']) l = false) : tryMarker l = none := by
  unfold tryMarker
  rw [h]
  rfl

theorem pageWalk_nil (i : Nat) : pageWalk i [] = ([], []) := rfl

theorem scanClean (u b : List Char) (hu : hasSub pagePat u = false)
    (hb : b = [] ∨ ∃ r, b = '[' :: r) :
    ∀ i, pageWalk i (u ++ b)
      = ((pageWalk (i + u.length) b).1,
         u ++ (pageWalk (i + u.length) b).2) := by
  induction u with
  | nil => intro i; simp
  | cons c u' ih =>
    intro i
    have hfire : tryMarker (c :: (u' ++ b)) = none := by
      apply tryMarker_none_of_begins
      cases hq : begins (pagePat ++ [' ']) (c :: (u' ++ b))
      · rfl
      · exfalso
        have h5 : begins pagePat ((c :: u') ++ b) = true := by
          rw [List.cons_append]
          exact begins_of_begins_append _ _ _ hq
        have hfalse := begins_pagePat_append_false (c :: u') b (by simp)
          (hasSub_false_begins _ _ hu) ?_
        · rw [hfalse] at h5; simp at h5
        · rcases hb with rfl | ⟨r, rfl⟩
          · exact Or.inl rfl
          · exact Or.inr ⟨'[', r, rfl, by decide⟩
    rw [List.cons_append, pageWalk_cons_none c (u' ++ b) hfire i,
      ih (hasSub_tail _ _ _ hu) (i + 1)]
    have harith : i + 1 + u'.length = i + (c :: u').length := by
      simp only [List.length_cons]
      omega
    rw [harith]
    rfl

theorem clean_cons_space (t : List Char) (h : hasSub pagePat t = false) :
    hasSub pagePat (' ' :: t) = false := by
  unfold hasSub
  rw [h, show begins pagePat (' ' :: t) = false from rfl]
  rfl

/-- Well-formed marker-bearing text: a clean stretch, then a complete
`[PAGE p]` marker with `p` in `[lo, hi]`, then more of the same; each
marker is followed by a space or the end of the text. -/
inductive CT (lo hi : Nat) : List Char → Prop
  | base (u : List Char) (hu : hasSub pagePat u = false) : CT lo hi u
  | step (u : List Char) (hu : hasSub pagePat u = false) (p : Nat)
      (hp : 1 ≤ p) (hlo : lo ≤ p) (hhi : p ≤ hi) (rest : List Char)
      (hr : CT lo hi rest) (hh : rest = [] ∨ rest.head? = some ' ') :
      CT lo hi (u ++ (markerChars p ++ rest))

/-- On well-formed text the walk reports only pages within the bounds, and
the text with the markers removed is free of `[PAGE`. -/
theorem walkCT (lo hi : Nat) (s : List Char) (h : CT lo hi s) :
    ∀ i, (∀ pp ∈ (pageWalk i s).1, lo ≤ pp.2 ∧ pp.2 ≤ hi) ∧
      hasSub pagePat (pageWalk i s).2 = false := by
  induction h with
  | base u hu =>
    intro i
    have h0 := scanClean u [] hu (Or.inl rfl) i
    simp only [List.append_nil, pageWalk_nil] at h0
    rw [h0]
    exact ⟨fun pp hpp => absurd hpp (by simp), by simpa using hu⟩
  | step u hu p hp hlo hhi rest hr hh ih =>
    intro i
    obtain ⟨r0, hr0⟩ : ∃ r, markerChars p = '[' :: r := ⟨_, rfl⟩
    have hconsform : markerChars p ++ rest = '[' :: (r0 ++ rest) := by
      rw [hr0]; rfl
    have hscan := scanClean u (markerChars p ++ rest) hu
      (Or.inr ⟨r0 ++ rest, hconsform⟩) i
    have htm : tryMarker ('[' :: (r0 ++ rest))
        = some (p, 6 + (digitsChars p).length + 1, rest) := by
      have h1 := tryMarker_marker p hp rest
      rw [hconsform] at h1
      exact h1
    have hwc := pageWalk_cons_some '[' (r0 ++ rest) p
      (6 + (digitsChars p).length + 1) rest htm (i + u.length)
    rw [← hconsform] at hwc
    have hout' := ih (i + u.length + (6 + (digitsChars p).length + 1))
    constructor
    · intro pp hpp
      rw [hscan] at hpp
      simp only at hpp
      rw [hwc] at hpp
      simp only [List.mem_cons] at hpp
      rcases hpp with rfl | hpp
      · exact ⟨hlo, hhi⟩
      · exact hout'.1 pp hpp
    · rw [hscan]
      simp only
      rw [hwc]
      simp only
      apply cleanAppend u _ hu hout'.2
      rcases hh with rfl | hh
      · left
        rw [pageWalk_nil]
      · obtain ⟨x, rfl⟩ : ∃ x, rest = ' ' :: x := by
          cases rest with
          | nil => simp at hh
          | cons a b =>
            simp only [List.head?_cons, Option.some.injEq] at hh
            exact ⟨b, by rw [hh]⟩
        have hnone : tryMarker (' ' :: x) = none :=
          tryMarker_none_of_begins _ rfl
        rw [pageWalk_cons_none ' ' x hnone]
        exact Or.inr ⟨' ', _, rfl, by decide⟩

/-- The rendering of a marker/text segment list: each segment is a marker,
a space, and its (clean) text. -/
def renderSegs : List (Nat × List Char) → List Char
  | [] => []
  | pt :: rest => markerChars pt.1 ++ (' ' :: (pt.2 ++ renderSegs rest))

theorem CT_render (lo hi : Nat) :
    ∀ entries : List (Nat × List Char),
      (∀ pt ∈ entries, 1 ≤ pt.1 ∧ lo ≤ pt.1 ∧ pt.1 ≤ hi ∧
        hasSub pagePat pt.2 = false) →
      ∀ u, hasSub pagePat u = false →
        CT lo hi (u ++ renderSegs entries) := by
  intro entries
  induction entries with
  | nil =>
    intro _ u hu
    rw [show renderSegs [] = [] from rfl, List.append_nil]
    exact CT.base u hu
  | cons pt rest ih =>
    intro hc u hu
    have hclean : hasSub pagePat pt.2 = false := (hc pt (by simp)).2.2.2
    have hrest : CT lo hi ((' ' :: pt.2) ++ renderSegs rest) :=
      ih (fun q hq => hc q (by simp [hq])) (' ' :: pt.2)
        (clean_cons_space pt.2 hclean)
    have hstep := CT.step u hu pt.1 (hc pt (by simp)).1
      (hc pt (by simp)).2.1 (hc pt (by simp)).2.2.1
      ((' ' :: pt.2) ++ renderSegs rest) hrest (Or.inr rfl)
    rw [show renderSegs (pt :: rest)
      = markerChars pt.1 ++ ((' ' :: pt.2) ++ renderSegs rest) from rfl]
    exact hstep

/-- Append a trailing space to the text of every segment but the last (the
shape produced by joining buffer entries with single spaces). -/
def padSegs : List (Nat × List Char) → List (Nat × List Char)
  | [] => []
  | [pt] => [pt]
  | pt :: rest => (pt.1, pt.2 ++ [' ']) :: padSegs rest

theorem joinSpace_cons₂ (a b : List Char) (l : List (List Char)) :
    joinSpace (a :: b :: l) = a ++ (' ' :: joinSpace (b :: l)) := by
  unfold joinSpace
  rw [List.intersperse_cons_cons]
  simp

theorem joinSpace_tagged :
    ∀ entries : List (Nat × List Char),
      joinSpace (entries.map (fun pt => taggedLine pt.1 pt.2))
        = renderSegs (padSegs entries) := by
  intro entries
  induction entries with
  | nil => rfl
  | cons pt rest ih =>
    cases rest with
    | nil => simp [joinSpace, renderSegs, padSegs, taggedLine]
    | cons q rest' =>
      rw [List.map_cons, List.map_cons, joinSpace_cons₂]
      have hform : taggedLine q.1 q.2
            :: List.map (fun pt => taggedLine pt.1 pt.2) rest'
          = List.map (fun pt => taggedLine pt.1 pt.2) (q :: rest') := rfl
      rw [hform, ih]
      rw [show padSegs (pt :: q :: rest')
        = (pt.1, pt.2 ++ [' ']) :: padSegs (q :: rest') from rfl]
      rw [show renderSegs ((pt.1, pt.2 ++ [' ']) :: padSegs (q :: rest'))
        = markerChars pt.1
          ++ (' ' :: ((pt.2 ++ [' ']) ++ renderSegs (padSegs (q :: rest'))))
        from rfl]
      simp [taggedLine, List.append_assoc]

theorem padSegs_conds (lo hi : Nat) :
    ∀ entries : List (Nat × List Char),
      (∀ pt ∈ entries, 1 ≤ pt.1 ∧ lo ≤ pt.1 ∧ pt.1 ≤ hi ∧
        hasSub pagePat pt.2 = false) →
      ∀ pt ∈ padSegs entries, 1 ≤ pt.1 ∧ lo ≤ pt.1 ∧ pt.1 ≤ hi ∧
        hasSub pagePat pt.2 = false := by
  intro entries
  induction entries with
  | nil => intro _ pt hpt; simp [padSegs] at hpt
  | cons a rest ih =>
    cases rest with
    | nil =>
      intro h pt hpt
      simp only [padSegs, List.mem_singleton] at hpt
      subst hpt
      exact h pt (by simp)
    | cons b rest' =>
      intro h pt hpt
      rw [show padSegs (a :: b :: rest')
        = (a.1, a.2 ++ [' ']) :: padSegs (b :: rest') from rfl] at hpt
      rcases List.mem_cons.mp hpt with rfl | hpt'
      · have ha := h a (by simp)
        refine ⟨ha.1, ha.2.1, ha.2.2.1, ?_⟩
        exact cleanAppend a.2 [' '] ha.2.2.2 (by decide)
          (Or.inr ⟨' ', [], rfl, by decide⟩)
      · exact ih (fun q hq => h q (by simp [hq])) pt hpt'

theorem collapseWsF_congr :
    ∀ n (l : List Char), l.length ≤ n →
      ∀ f1 f2, l.length ≤ f1 → l.length ≤ f2 →
        collapseWsF f1 l = collapseWsF f2 l := by
  intro n
  induction n with
  | zero =>
    intro l hl f1 f2 h1 h2
    have : l = [] := List.eq_nil_of_length_eq_zero (by omega)
    subst this
    cases f1 <;> cases f2 <;> rfl
  | succ n ih =>
    intro l hl f1 f2 h1 h2
    cases l with
    | nil => cases f1 <;> cases f2 <;> rfl
    | cons c rest =>
      simp only [List.length_cons] at hl h1 h2
      obtain ⟨f1', rfl⟩ : ∃ f1', f1 = f1' + 1 := ⟨f1 - 1, by omega⟩
      obtain ⟨f2', rfl⟩ : ∃ f2', f2 = f2' + 1 := ⟨f2 - 1, by omega⟩
      simp only [collapseWsF]
      by_cases hc : pyWs c = true
      · rw [hc]
        simp only [if_true]
        have hd : (rest.dropWhile pyWs).length ≤ rest.length :=
          (List.dropWhile_sublist pyWs).length_le
        rw [ih (rest.dropWhile pyWs) (by omega) f1' f2' (by omega) (by omega)]
      · rw [Bool.not_eq_true] at hc
        rw [hc]
        simp only [Bool.false_eq_true, if_false]
        rw [ih rest (by omega) f1' f2' (by omega) (by omega)]

theorem collapseWs_cons_ws (c : Char) (hc : pyWs c = true)
    (rest : List Char) :
    collapseWs (c :: rest) = ' ' :: collapseWs (rest.dropWhile pyWs) := by
  unfold collapseWs
  rw [show (c :: rest).length = rest.length + 1 from rfl]
  simp only [collapseWsF, hc, if_true]
  have hd : (rest.dropWhile pyWs).length ≤ rest.length :=
    (List.dropWhile_sublist pyWs).length_le
  rw [collapseWsF_congr rest.length (rest.dropWhile pyWs) hd rest.length
    (rest.dropWhile pyWs).length hd le_rfl]

theorem collapseWs_cons_nws (c : Char) (hc : pyWs c = false)
    (rest : List Char) :
    collapseWs (c :: rest) = c :: collapseWs rest := by
  unfold collapseWs
  rw [show (c :: rest).length = rest.length + 1 from rfl]
  simp only [collapseWsF, hc, Bool.false_eq_true, if_false]

theorem collapseWs_append :
    ∀ n (a : List Char), a.length ≤ n →
      ∀ b, (b = [] ∨ ∃ d r, b = d :: r ∧ pyWs d = false) →
        collapseWs (a ++ b) = collapseWs a ++ collapseWs b := by
  intro n
  induction n with
  | zero =>
    intro a ha b hb
    have : a = [] := List.eq_nil_of_length_eq_zero (by omega)
    subst this
    simp [collapseWs, collapseWsF]
  | succ n ih =>
    intro a ha b hb
    cases a with
    | nil => simp [collapseWs, collapseWsF]
    | cons c a' =>
      simp only [List.length_cons] at ha
      rw [List.cons_append]
      by_cases hc : pyWs c = true
      · rw [collapseWs_cons_ws c hc (a' ++ b), collapseWs_cons_ws c hc a']
        have hdrop : (a' ++ b).dropWhile pyWs
            = a'.dropWhile pyWs ++ b := by
          rw [List.dropWhile_append]
          by_cases he : (a'.dropWhile pyWs).isEmpty = true
          · rw [if_pos he]
            rcases hb with rfl | ⟨d, r, rfl, hd⟩
            · simp [List.isEmpty_iff.mp he]
            · rw [List.dropWhile_cons, hd]
              simp [List.isEmpty_iff.mp he]
          · rw [if_neg he]
        rw [hdrop]
        have hlen : (a'.dropWhile pyWs).length ≤ n := by
          have := (List.dropWhile_sublist (l := a') pyWs).length_le
          omega
        rw [ih (a'.dropWhile pyWs) hlen b hb, List.cons_append]
      · rw [Bool.not_eq_true] at hc
        rw [collapseWs_cons_nws c hc (a' ++ b), collapseWs_cons_nws c hc a',
          ih a' (by omega) b hb, List.cons_append]

theorem collapseWs_nws_run (u : List Char) (hu : ∀ c ∈ u, pyWs c = false) :
    ∀ r, collapseWs (u ++ r) = u ++ collapseWs r := by
  induction u with
  | nil => intro r; rfl
  | cons c u' ih =>
    intro r
    rw [List.cons_append,
      collapseWs_cons_nws c (hu c (by simp)) (u' ++ r),
      ih (fun d hd => hu d (by simp [hd])) r, List.cons_append]

theorem collapseWs_space_nws (r : List Char)
    (hr : r = [] ∨ ∃ d x, r = d :: x ∧ pyWs d = false) :
    collapseWs (' ' :: r) = ' ' :: collapseWs r := by
  rw [collapseWs_cons_ws ' ' (by decide) r]
  rcases hr with rfl | ⟨d, x, rfl, hd⟩
  · rfl
  · rw [List.dropWhile_cons, hd]
    simp

theorem digit_not_ws (c : Char) (h : c.isDigit = true) : pyWs c = false := by
  cases hq : pyWs c
  · rfl
  · exfalso
    unfold pyWs at hq
    simp only [Bool.or_eq_true, decide_eq_true_eq] at hq
    rcases hq with ((((h1 | h1) | h1) | h1) | h1) | h1 <;> subst h1 <;>
      simp at h

theorem begins_collapseF :
    ∀ q, (∀ c ∈ q, pyWs c = false) →
      ∀ fuel l, l.length ≤ fuel →
        begins q (collapseWsF fuel l) = true → begins q l = true := by
  intro q
  induction q with
  | nil => intro _ fuel l _ _; rfl
  | cons d q' ih =>
    intro hq fuel l hl hb
    cases fuel with
    | zero =>
      have : l = [] := List.eq_nil_of_length_eq_zero (by omega)
      subst this
      simp [begins, collapseWsF] at hb
    | succ fuel =>
      cases l with
      | nil => simp [begins, collapseWsF] at hb
      | cons c rest =>
        simp only [List.length_cons] at hl
        simp only [collapseWsF] at hb
        by_cases hc : pyWs c = true
        · rw [hc] at hb
          simp only [if_true, begins, Bool.and_eq_true,
            decide_eq_true_eq] at hb
          have hd := hq d (by simp)
          rw [hb.1] at hd
          simp [pyWs] at hd
        · rw [Bool.not_eq_true] at hc
          rw [hc] at hb
          simp only [Bool.false_eq_true, if_false, begins,
            Bool.and_eq_true] at hb
          simp only [begins, Bool.and_eq_true]
          exact ⟨hb.1, ih (fun e he => hq e (by simp [he])) fuel rest
            (by omega) hb.2⟩

theorem hasSub_suffix_mono (pat s' s : List Char) (hs : s' <:+ s)
    (h : hasSub pat s' = true) : hasSub pat s = true := by
  obtain ⟨w, rfl⟩ := hs
  exact hasSub_append_r pat w s' h

theorem hasSub_collapseF :
    ∀ fuel l, l.length ≤ fuel →
      hasSub pagePat (collapseWsF fuel l) = true →
      hasSub pagePat l = true := by
  intro fuel
  induction fuel with
  | zero =>
    intro l hl h
    simp [collapseWsF, hasSub, begins, pagePat] at h
  | succ fuel ih =>
    intro l hl h
    cases l with
    | nil => simp [collapseWsF, hasSub, begins, pagePat] at h
    | cons c rest =>
      simp only [List.length_cons] at hl
      simp only [collapseWsF] at h
      by_cases hc : pyWs c = true
      · rw [hc] at h
        simp only [if_true] at h
        unfold hasSub at h
        rcases Bool.or_eq_true_iff.mp h with h1 | h1
        · simp [pagePat, begins] at h1
        · have hd : (rest.dropWhile pyWs).length ≤ rest.length :=
            (List.dropWhile_sublist pyWs).length_le
          have h2 := ih (rest.dropWhile pyWs) (by omega) h1
          have h3 := hasSub_suffix_mono pagePat _ rest
            (List.dropWhile_suffix pyWs) h2
          exact hasSub_cons_of_tail _ _ _ h3
      · rw [Bool.not_eq_true] at hc
        rw [hc] at h
        simp only [Bool.false_eq_true, if_false] at h
        unfold hasSub at h
        rcases Bool.or_eq_true_iff.mp h with h1 | h1
        · have hb : begins pagePat (collapseWsF (fuel + 1) (c :: rest))
              = true := by
            simp only [collapseWsF, hc, Bool.false_eq_true, if_false]
            exact h1
          have h2 := begins_collapseF pagePat (by decide) (fuel + 1)
            (c :: rest) (by simp only [List.length_cons]; omega) hb
          exact hasSub_of_begins _ _ h2
        · exact hasSub_cons_of_tail _ _ _ (ih rest (by omega) h1)

theorem clean_collapse (l : List Char) (h : hasSub pagePat l = false) :
    hasSub pagePat (collapseWs l) = false := by
  cases hq : hasSub pagePat (collapseWs l)
  · rfl
  · rw [hasSub_collapseF l.length l le_rfl hq] at h
    simp at h

theorem stripWs_decomp (s : List Char) :
    ∃ a b, s = a ++ (stripWs s ++ b) := by
  unfold stripWs
  obtain ⟨w, hw⟩ := List.dropWhile_suffix (l := s) pyWs
  obtain ⟨v, hv⟩ := List.dropWhile_suffix (l := (s.dropWhile pyWs).reverse)
    pyWs
  refine ⟨w, v.reverse, ?_⟩
  have h2 : s.dropWhile pyWs
      = ((s.dropWhile pyWs).reverse.dropWhile pyWs).reverse ++ v.reverse := by
    have h3 := congrArg List.reverse hv
    simp only [List.reverse_append, List.reverse_reverse] at h3
    exact h3.symm
  conv_lhs => rw [← hw]
  congr 1

theorem clean_stripWs (s : List Char) (h : hasSub pagePat s = false) :
    hasSub pagePat (stripWs s) = false := by
  obtain ⟨a, b, hab⟩ := stripWs_decomp s
  exact clean_within _ s h ⟨a, b, by rw [List.append_assoc]; exact hab.symm⟩

theorem dropWhile_eq_self_of_head (l : List Char)
    (h : l = [] ∨ ∃ d r, l = d :: r ∧ pyWs d = false) :
    l.dropWhile pyWs = l := by
  rcases h with rfl | ⟨d, r, rfl, hd⟩
  · rfl
  · rw [List.dropWhile_cons, hd]
    simp

theorem stripWs_eq_self (s : List Char)
    (hh : s = [] ∨ ∃ d r, s = d :: r ∧ pyWs d = false)
    (hl : s = [] ∨ ∃ d, s.getLast? = some d ∧ pyWs d = false) :
    stripWs s = s := by
  unfold stripWs
  rw [dropWhile_eq_self_of_head s hh]
  have h2 : s.reverse.dropWhile pyWs = s.reverse := by
    apply dropWhile_eq_self_of_head
    rcases hl with rfl | ⟨d, hd, hws⟩
    · left; rfl
    · right
      cases hsr : s.reverse with
      | nil =>
        exfalso
        have : s = [] := by simpa using congrArg List.reverse hsr
        subst this
        simp at hd
      | cons x xs =>
        refine ⟨x, xs, rfl, ?_⟩
        have h3 := List.head?_reverse s
        rw [hsr, hd] at h3
        simp only [List.head?_cons, Option.some.injEq] at h3
        rw [h3]
        exact hws
  rw [h2, List.reverse_reverse]

theorem collapseWs_singleton_nws (d : Char) (hd : pyWs d = false) :
    collapseWs [d] = [d] := by
  rw [collapseWs_cons_nws d hd []]
  rfl

theorem collapse_last_nws (t : List Char) (d : Char)
    (hl : t.getLast? = some d) (hd : pyWs d = false) :
    (collapseWs t).getLast? = some d := by
  obtain ⟨t', rfl⟩ := List.getLast?_eq_some_iff.mp hl
  rw [collapseWs_append t'.length t' le_rfl [d] (Or.inr ⟨d, [], rfl, hd⟩),
    collapseWs_singleton_nws d hd, List.getLast?_concat]

theorem renderSegs_head (segs : List (Nat × List Char)) :
    renderSegs segs = [] ∨ ∃ r, renderSegs segs = '[' :: r := by
  cases segs with
  | nil => left; rfl
  | cons pt rest =>
    right
    obtain ⟨r0, hr0⟩ : ∃ r, markerChars pt.1 = '[' :: r := ⟨_, rfl⟩
    refine ⟨r0 ++ (' ' :: (pt.2 ++ renderSegs rest)), ?_⟩
    rw [show renderSegs (pt :: rest)
      = markerChars pt.1 ++ (' ' :: (pt.2 ++ renderSegs rest)) from rfl, hr0]
    rfl

/-- Whitespace collapsing commutes with the marker/segment structure: it
touches only the segment texts. -/
theorem collapseWs_render :
    ∀ segs : List (Nat × List Char),
      (∀ pt ∈ segs, 1 ≤ pt.1 ∧ ∃ d r, pt.2 = d :: r ∧ pyWs d = false) →
      collapseWs (renderSegs segs)
        = renderSegs (segs.map (fun pt => (pt.1, collapseWs pt.2))) := by
  intro segs
  induction segs with
  | nil => intro _; rfl
  | cons pt rest ih =>
    intro hc
    obtain ⟨d0, t', ht, hd0⟩ := (hc pt (by simp)).2
    have hp1 : 1 ≤ pt.1 := (hc pt (by simp)).1
    have hS : renderSegs (pt :: rest)
        = pagePat ++ (' ' :: (digitsChars pt.1
          ++ (']' :: (' ' :: (pt.2 ++ renderSegs rest))))) := by
      simp [renderSegs, markerChars, List.append_assoc]
    have hdigall : ∀ c ∈ digitsChars pt.1, pyWs c = false :=
      fun c hcc => digit_not_ws c (natDigitsF_digits _ _ c hcc)
    have hDne : digitsChars pt.1 ≠ [] := digitsChars_ne_nil pt.1 hp1
    obtain ⟨e0, D', hD⟩ : ∃ e D', digitsChars pt.1 = e :: D' := by
      cases hq : digitsChars pt.1 with
      | nil => exact absurd hq hDne
      | cons e D' => exact ⟨e, D', rfl⟩
    have he0 : pyWs e0 = false := by
      apply hdigall
      rw [hD]
      simp
    have hRhead : renderSegs rest = []
        ∨ ∃ d r, renderSegs rest = d :: r ∧ pyWs d = false := by
      rcases renderSegs_head rest with h1 | ⟨r, h1⟩
      · exact Or.inl h1
      · exact Or.inr ⟨'[', r, h1, by decide⟩
    rw [hS, collapseWs_nws_run pagePat (by decide),
      collapseWs_space_nws
        (digitsChars pt.1 ++ (']' :: (' ' :: (pt.2 ++ renderSegs rest))))
        (Or.inr ⟨e0, D' ++ (']' :: (' ' :: (pt.2 ++ renderSegs rest))),
          by rw [hD]; rfl, he0⟩),
      collapseWs_nws_run (digitsChars pt.1) hdigall,
      collapseWs_cons_nws ']' (by decide),
      collapseWs_space_nws (pt.2 ++ renderSegs rest)
        (Or.inr ⟨d0, t' ++ renderSegs rest, by rw [ht]; rfl, hd0⟩),
      collapseWs_append pt.2.length pt.2 le_rfl (renderSegs rest) hRhead,
      ih (fun q hq => hc q (by simp [hq]))]
    simp [renderSegs, markerChars, List.append_assoc]

/-- The conditions a section-buffer entry `(page, text)` satisfies: page in
range, text clean, nonempty, and whitespace-free at both ends. -/
def EntryOK (lo hi : Nat) (pt : Nat × List Char) : Prop :=
  1 ≤ pt.1 ∧ lo ≤ pt.1 ∧ pt.1 ≤ hi ∧ hasSub pagePat pt.2 = false ∧
    (∃ d r, pt.2 = d :: r ∧ pyWs d = false) ∧
    (∃ d, pt.2.getLast? = some d ∧ pyWs d = false)

theorem padSegs_head :
    ∀ entries : List (Nat × List Char),
      (∀ pt ∈ entries, ∃ d r, pt.2 = d :: r ∧ pyWs d = false) →
      ∀ pt ∈ padSegs entries, ∃ d r, pt.2 = d :: r ∧ pyWs d = false := by
  intro entries
  induction entries with
  | nil => intro _ pt hpt; simp [padSegs] at hpt
  | cons a rest ih =>
    cases rest with
    | nil =>
      intro h pt hpt
      simp only [padSegs, List.mem_singleton] at hpt
      subst hpt
      exact h pt (by simp)
    | cons b rest' =>
      intro h pt hpt
      rw [show padSegs (a :: b :: rest')
        = (a.1, a.2 ++ [' ']) :: padSegs (b :: rest') from rfl] at hpt
      rcases List.mem_cons.mp hpt with rfl | hpt'
      · obtain ⟨d, r, hdr, hd⟩ := h a (by simp)
        exact ⟨d, r ++ [' '], by simp [hdr], hd⟩
      · exact ih (fun q hq => h q (by simp [hq])) pt hpt'

theorem padSegs_getLast :
    ∀ (entries : List (Nat × List Char)) (pt : Nat × List Char),
      entries.getLast? = some pt → (padSegs entries).getLast? = some pt := by
  intro entries
  induction entries with
  | nil => intro pt hpt; simp at hpt
  | cons a rest ih =>
    cases rest with
    | nil =>
      intro pt hpt
      simpa [padSegs] using hpt
    | cons b rest' =>
      intro pt hpt
      rw [List.getLast?_cons_cons] at hpt
      rw [show padSegs (a :: b :: rest')
        = (a.1, a.2 ++ [' ']) :: padSegs (b :: rest') from rfl]
      have h2 := ih pt hpt
      cases hq : padSegs (b :: rest') with
      | nil => rw [hq] at h2; simp at h2
      | cons x xs =>
        rw [hq] at h2
        rw [List.getLast?_cons_cons]
        exact h2

theorem renderSegs_ne_nil (pt : Nat × List Char)
    (rest : List (Nat × List Char)) : renderSegs (pt :: rest) ≠ [] := by
  rcases renderSegs_head (pt :: rest) with h1 | ⟨r, h1⟩
  · exfalso
    obtain ⟨r0, hr0⟩ : ∃ r, markerChars pt.1 = '[' :: r := ⟨_, rfl⟩
    rw [show renderSegs (pt :: rest)
      = markerChars pt.1 ++ (' ' :: (pt.2 ++ renderSegs rest)) from rfl,
      hr0] at h1
    simp at h1
  · rw [h1]
    simp

theorem renderSegs_getLast :
    ∀ (segs : List (Nat × List Char)) (pt : Nat × List Char),
      segs.getLast? = some pt → pt.2 ≠ [] →
      (renderSegs segs).getLast? = pt.2.getLast? := by
  intro segs
  induction segs with
  | nil => intro pt hpt; simp at hpt
  | cons q rest ih =>
    cases rest with
    | nil =>
      intro pt hpt hne
      simp only [List.getLast?_cons, List.getLast?_nil] at hpt
      have hq : q = pt := by simpa using hpt
      subst hq
      rw [show renderSegs [q]
        = markerChars q.1 ++ (' ' :: (q.2 ++ renderSegs [])) from rfl]
      rw [show renderSegs ([] : List (Nat × List Char)) = [] from rfl,
        List.append_nil]
      rw [show (' ' :: q.2) = [' '] ++ q.2 from rfl, List.getLast?_append,
        List.getLast?_append]
      cases hlast : q.2.getLast? with
      | none =>
        exfalso
        rw [List.getLast?_eq_none_iff] at hlast
        exact hne hlast
      | some d => rfl
    | cons q2 rest' =>
      intro pt hpt hne
      rw [List.getLast?_cons_cons] at hpt
      have hR := renderSegs_ne_nil q2 rest'
      rw [show renderSegs (q :: q2 :: rest')
        = markerChars q.1 ++ (' ' :: (q.2 ++ renderSegs (q2 :: rest')))
        from rfl]
      rw [show (' ' :: (q.2 ++ renderSegs (q2 :: rest')))
        = (' ' :: q.2) ++ renderSegs (q2 :: rest') from by simp]
      rw [List.getLast?_append, List.getLast?_append]
      have h2 := ih pt hpt hne
      rw [h2]
      cases hlast : pt.2.getLast? with
      | none =>
        exfalso
        rw [List.getLast?_eq_none_iff] at hlast
        exact hne hlast
      | some d => rfl

/-- The fully prepared text of a section — buffer entries tagged, joined
with spaces, whitespace-collapsed and stripped — is well-formed
marker-bearing text. -/
theorem sectionText_CT (lo hi : Nat) (entries : List (Nat × List Char))
    (hc : ∀ pt ∈ entries, EntryOK lo hi pt) :
    CT lo hi (stripWs (collapseWs
      (joinSpace (entries.map (fun pt => taggedLine pt.1 pt.2))))) := by
  have hjoin := joinSpace_tagged entries
  rw [hjoin]
  have hcond4 : ∀ q ∈ entries, 1 ≤ q.1 ∧ lo ≤ q.1 ∧ q.1 ≤ hi ∧
      hasSub pagePat q.2 = false :=
    fun q hq => ⟨(hc q hq).1, (hc q hq).2.1, (hc q hq).2.2.1,
      (hc q hq).2.2.2.1⟩
  have hpadconds := padSegs_conds lo hi entries hcond4
  have hpadhead := padSegs_head entries
    (fun pt hpt => (hc pt hpt).2.2.2.2.1)
  rw [collapseWs_render (padSegs entries)
    (fun pt hpt => ⟨(hpadconds pt hpt).1, hpadhead pt hpt⟩)]
  have hmapconds : ∀ pt ∈ (padSegs entries).map
      (fun pt => (pt.1, collapseWs pt.2)),
      1 ≤ pt.1 ∧ lo ≤ pt.1 ∧ pt.1 ≤ hi ∧ hasSub pagePat pt.2 = false := by
    intro pt hpt
    obtain ⟨q, hq, rfl⟩ := List.mem_map.mp hpt
    exact ⟨(hpadconds q hq).1, (hpadconds q hq).2.1, (hpadconds q hq).2.2.1,
      clean_collapse q.2 (hpadconds q hq).2.2.2⟩
  have hstrip : stripWs (renderSegs ((padSegs entries).map
      (fun pt => (pt.1, collapseWs pt.2))))
      = renderSegs ((padSegs entries).map
      (fun pt => (pt.1, collapseWs pt.2))) := by
    apply stripWs_eq_self
    · rcases renderSegs_head ((padSegs entries).map
        (fun pt => (pt.1, collapseWs pt.2))) with h1 | ⟨r, h1⟩
      · exact Or.inl h1
      · exact Or.inr ⟨'[', r, h1, by decide⟩
    · cases hlast : entries.getLast? with
      | none =>
        left
        rw [List.getLast?_eq_none_iff] at hlast
        subst hlast
        rfl
      | some plast =>
        right
        have hmem := List.mem_of_getLast?_eq_some hlast
        obtain ⟨d0, r0, hdr0, hd0⟩ := (hc plast hmem).2.2.2.2.1
        obtain ⟨dl, hdl, hdlws⟩ := (hc plast hmem).2.2.2.2.2
        have hcne : collapseWs plast.2 ≠ [] := by
          rw [hdr0, collapseWs_cons_nws d0 hd0]
          simp
        have hclast : (collapseWs plast.2).getLast? = some dl :=
          collapse_last_nws plast.2 dl hdl hdlws
        have hpadlast := padSegs_getLast entries plast hlast
        have hmaplast : ((padSegs entries).map
            (fun pt => (pt.1, collapseWs pt.2))).getLast?
            = some (plast.1, collapseWs plast.2) := by
          rw [List.getLast?_map, hpadlast]
          rfl
        have hrl := renderSegs_getLast _ _ hmaplast hcne
        exact ⟨dl, by rw [hrl]; exact hclast, hdlws⟩
  rw [hstrip]
  have hCT := CT_render lo hi ((padSegs entries).map
    (fun pt => (pt.1, collapseWs pt.2))) hmapconds [] (by rfl)
  simpa using hCT

/-- A fold preserving an invariant. -/
theorem foldl_inv {α β : Type} (g : β → α → β) (R : β → Prop)
    (l : List α) (hg : ∀ acc x, x ∈ l → R acc → R (g acc x)) :
    ∀ init, R init → R (l.foldl g init) := by
  induction l with
  | nil => intro init h; exact h
  | cons a t ih =>
    intro init h
    rw [List.foldl_cons]
    exact ih (fun acc x hx hacc => hg acc x (by simp [hx]) hacc) _
      (hg init a (by simp) h)

/-- `pickPage` returns the default start page or the page of one of the
recorded markers. -/
theorem pickPage_cases (pps : List (Nat × Nat)) (sp off : Nat) :
    pickPage pps sp off = sp ∨ ∃ pp ∈ pps, pickPage pps sp off = pp.2 := by
  unfold pickPage
  refine foldl_inv _ (fun n => n = sp ∨ ∃ pp ∈ pps, n = pp.2) pps
    ?_ sp (Or.inl rfl)
  intro acc x hx hacc
  dsimp only
  split
  · exact Or.inr ⟨x, hx, rfl⟩
  · exact hacc

theorem chunkPages_pages (pps : List (Nat × Nat)) (sp : Nat) :
    ∀ (ts : List (List Char)) (off : Nat) (c : PChunk),
      c ∈ chunkPages pps sp off ts → ∃ o, c.page = pickPage pps sp o := by
  intro ts
  induction ts with
  | nil => intro off c hc; simp [chunkPages] at hc
  | cons t rest ih =>
    intro off c hc
    unfold chunkPages at hc
    rcases List.mem_cons.mp hc with h | h
    · subst h; exact ⟨off, rfl⟩
    · exact ih _ c h

theorem flatten_map_singleton (s : List Char) :
    (s.map (fun c => [c])).flatten = s := by
  induction s with
  | nil => rfl
  | cons c cs ih => simp [ih]

theorem flatten_map_flatten (g : List Char → List (List Char)) :
    ∀ L : List (List Char), (∀ p ∈ L, (g p).flatten = p) →
      ((L.map g).flatten).flatten = L.flatten := by
  intro L
  induction L with
  | nil => intro _; rfl
  | cons a t ihL =>
    intro hg
    simp only [List.map_cons, List.flatten_cons, List.flatten_append]
    rw [hg a (by simp), ihL (fun p hp => hg p (by simp [hp]))]

/-- The cascade splitter's pieces concatenate back to the input. -/
theorem recSplit_flatten :
    ∀ (seps : List (List Char)) (bound : Nat) (s : List Char),
      (recSplit seps bound s).flatten = s := by
  intro seps
  induction seps with
  | nil =>
    intro bound s
    unfold recSplit
    by_cases h : s.length ≤ bound
    · simp only [h, if_true]
      simp
    · simp only [h, if_false]
      exact flatten_map_singleton s
  | cons sep rest ih =>
    intro bound s
    unfold recSplit
    by_cases h : s.length ≤ bound
    · simp only [h, if_true]
      simp
    · simp only [h, if_false]
      by_cases hemp : sep.isEmpty
      · simp only [hemp, if_true]
        exact flatten_map_singleton s
      · simp only [hemp, Bool.false_eq_true, if_false]
        have hsep : sep ≠ [] := by
          cases sep
          · simp at hemp
          · simp
        rw [flatten_map_flatten _ (splitKeep sep s) ?_,
          splitKeep_flatten sep hsep s]
        intro p hp
        by_cases hpl : p.length ≤ bound
        · simp [hpl]
        · simp only [hpl, if_false]
          exact ih bound p

theorem within_of_mem_flatten (x : List Char) (L : List (List Char))
    (hx : x ∈ L) : x <:+: L.flatten := by
  obtain ⟨s1, s2, rfl⟩ := List.append_of_mem hx
  refine ⟨s1.flatten, s2.flatten, ?_⟩
  simp [List.append_assoc]

theorem chain_adj : ∀ (L : List (List Char)),
    List.Chain' (fun a b => (a ++ b) <:+: L.flatten) L := by
  intro L
  induction L with
  | nil => exact List.chain'_nil
  | cons a t ih =>
    cases t with
    | nil => simp
    | cons b t' =>
      refine List.chain'_cons.mpr ⟨?_, ?_⟩
      · refine ⟨[], t'.flatten, ?_⟩
        simp [List.append_assoc]
      · refine List.Chain'.imp ?_ ih
        intro x y hxy
        refine hxy.trans ⟨a, [], ?_⟩
        simp

theorem wsTailPart_suffix (ov : Nat) (prev : List Char) :
    wsTailPart ov prev <:+ prev := by
  unfold wsTailPart
  by_cases h : prev.length ≤ ov
  · rw [if_pos h]
  · rw [if_neg h]
    by_cases h2 : pyWs ((prev.drop (prev.length - ov - 1)).headD ' ') = true
    · rw [if_pos h2]
      exact List.drop_suffix _ _
    · rw [if_neg h2]
      exact (List.dropWhile_suffix _).trans (List.drop_suffix _ _)

theorem within_append_left_of_suffix (tail prev x s : List Char)
    (hsuf : tail <:+ prev) (hw : (prev ++ x) <:+: s) :
    (tail ++ x) <:+: s := by
  obtain ⟨w, rfl⟩ := hsuf
  refine (?_ : (tail ++ x) <:+: ((w ++ tail) ++ x)).trans hw
  refine ⟨w, [], ?_⟩
  simp [List.append_assoc]

theorem applyOverlap_go_within (ov : Nat) (s : List Char) :
    ∀ (rest : List (List Char)) (prev : List Char),
      List.Chain' (fun a b => (a ++ b) <:+: s) (prev :: rest) →
      ∀ y ∈ applyOverlapModel.go ov prev rest, y <:+: s := by
  intro rest
  induction rest with
  | nil => intro prev _ y hy; simp [applyOverlapModel.go] at hy
  | cons x xs ih =>
    intro prev hchain y hy
    rw [show applyOverlapModel.go ov prev (x :: xs)
      = (wsTailPart ov prev ++ x) :: applyOverlapModel.go ov x xs
      from rfl] at hy
    rcases List.mem_cons.mp hy with rfl | hy'
    · exact within_append_left_of_suffix _ prev x s
        (wsTailPart_suffix ov prev) (List.chain'_cons.mp hchain).1
    · exact ih x (List.chain'_cons.mp hchain).2 y hy'

theorem applyOverlap_within (ov : Nat) (L : List (List Char)) :
    ∀ y ∈ applyOverlapModel ov L, y <:+: L.flatten := by
  cases L with
  | nil => intro y hy; simp [applyOverlapModel] at hy
  | cons c rest =>
    intro y hy
    rw [show applyOverlapModel ov (c :: rest)
      = c :: applyOverlapModel.go ov c rest from rfl] at hy
    rcases List.mem_cons.mp hy with rfl | hy'
    · exact within_of_mem_flatten y _ (by simp)
    · exact applyOverlap_go_within ov (c :: rest).flatten rest c
        (chain_adj (c :: rest)) y hy'

theorem split_text_within (cs ov : Nat) (s : List Char) :
    ∀ y ∈ split_text cs ov s, y <:+: s := by
  intro y hy
  unfold split_text at hy
  have h1 := applyOverlap_within ov (recSplit separators cs s) y hy
  rw [recSplit_flatten separators cs s] at h1
  exact h1

/-- On well-formed text every chunk of `_chunk_text` is attributed a page
between the default start page and the upper page bound. -/
theorem chunk_text_pages (cs ov : Nat) (text : List Char) (sp N : Nat)
    (hspN : sp ≤ N) (hct : CT sp N text) :
    ∀ c ∈ chunk_text cs ov text sp, sp ≤ c.page ∧ c.page ≤ N := by
  intro c hc
  have hdef : chunk_text cs ov text sp
      = chunkPages (pageWalk 0 text).1 sp 0
        (((split_text cs ov (stripWs (collapseWs
          (pageWalk 0 text).2))).map stripWs).filter
          (fun t => 50 < t.length)) := rfl
  rw [hdef] at hc
  have hw := (walkCT sp N text hct 0).1
  obtain ⟨o, ho⟩ := chunkPages_pages (pageWalk 0 text).1 sp _ 0 c hc
  rw [ho]
  rcases pickPage_cases (pageWalk 0 text).1 sp o with h1 | ⟨pp, hpp, h1⟩
  · rw [h1]
    exact ⟨le_rfl, hspN⟩
  · rw [h1]
    exact hw pp hpp

/-- On well-formed text every chunk text of `_chunk_text` is free of
`[PAGE`. -/
theorem chunk_text_clean (cs ov : Nat) (text : List Char) (sp lo hi : Nat)
    (hct : CT lo hi text) :
    ∀ c ∈ chunk_text cs ov text sp, hasSub pagePat c.text = false := by
  intro c hc
  have hdef : chunk_text cs ov text sp
      = chunkPages (pageWalk 0 text).1 sp 0
        (((split_text cs ov (stripWs (collapseWs
          (pageWalk 0 text).2))).map stripWs).filter
          (fun t => 50 < t.length)) := rfl
  rw [hdef] at hc
  have htext := chunkPages_text_mem (pageWalk 0 text).1 sp _ 0 c hc
  rw [List.mem_filter] at htext
  obtain ⟨y, hy, hyeq⟩ := List.mem_map.mp htext.1
  have hclean0 : hasSub pagePat
      (stripWs (collapseWs (pageWalk 0 text).2)) = false :=
    clean_stripWs _ (clean_collapse _ (walkCT lo hi text hct 0).2)
  have hyclean : hasSub pagePat y = false :=
    clean_within y _ hclean0 (split_text_within cs ov _ y hy)
  rw [← hyeq]
  exact clean_stripWs y hyclean

theorem splitSentencesF_within :
    ∀ (fuel : Nat) (acc l x : List Char),
      x ∈ splitSentencesF fuel acc l → x <:+: (acc.reverse ++ l) := by
  intro fuel
  induction fuel with
  | zero =>
    intro acc l x hx
    simp only [splitSentencesF, List.mem_singleton] at hx
    subst hx
    exact ⟨[], l, by simp⟩
  | succ fuel ih =>
    intro acc l x hx
    cases l with
    | nil =>
      simp only [splitSentencesF, List.mem_singleton] at hx
      subst hx
      exact ⟨[], [], by simp⟩
    | cons c rest =>
      unfold splitSentencesF at hx
      by_cases hcond : ((c = '.' || c = '!' || c = '?')
          && (rest.headD 'x' |> pyWs)) = true
      · rw [if_pos hcond] at hx
        rcases List.mem_cons.mp hx with rfl | hx'
        · refine ⟨[], rest, ?_⟩
          simp [List.append_assoc]
        · have h1 := ih [] (rest.dropWhile pyWs) x hx'
          simp only [List.reverse_nil, List.nil_append] at h1
          obtain ⟨w, hw⟩ := List.dropWhile_suffix (l := rest) pyWs
          refine h1.trans (((?_ : rest.dropWhile pyWs <:+: rest)).trans
            ⟨acc.reverse ++ [c], [], by simp [List.append_assoc]⟩)
          exact ⟨w, [], by simp [hw]⟩
      · rw [if_neg hcond] at hx
        have h1 := ih (c :: acc) rest x hx
        have heq : (c :: acc).reverse ++ rest
            = acc.reverse ++ c :: rest := by simp
        rw [heq] at h1
        exact h1

theorem splitSentences_within (s : List Char) :
    ∀ x ∈ splitSentences s, x <:+: s := by
  intro x hx
  have h1 := splitSentencesF_within s.length [] s x hx
  simpa using h1

theorem fallbackAccum_clean (cs : Nat) (pps : List (Nat × Nat)) (sp : Nat) :
    ∀ (sentences : List (List Char))
      (st : List PChunk × List Char × Nat),
      (∀ x ∈ sentences, hasSub pagePat x = false) →
      (∀ c ∈ st.1, hasSub pagePat c.text = false) →
      hasSub pagePat st.2.1 = false →
      (∀ c ∈ (fallbackAccum cs pps sp st sentences).1,
        hasSub pagePat c.text = false) ∧
      hasSub pagePat (fallbackAccum cs pps sp st sentences).2.1
        = false := by
  intro sentences
  induction sentences with
  | nil =>
    intro st _ h1 h2
    exact ⟨h1, h2⟩
  | cons sen rest ih =>
    intro st hs h1 h2
    obtain ⟨chunks, current, off⟩ := st
    unfold fallbackAccum
    by_cases hcond : (cs < current.length + sen.length
        && !current.isEmpty) = true
    · rw [if_pos hcond]
      apply ih
      · exact fun x hx => hs x (by simp [hx])
      · intro c hc
        rcases List.mem_append.mp hc with h | h
        · exact h1 c h
        · simp only [List.mem_singleton] at h
          subst h
          exact clean_stripWs current h2
      · exact hs sen (by simp)
    · rw [if_neg hcond]
      apply ih
      · exact fun x hx => hs x (by simp [hx])
      · exact h1
      · by_cases hemp : current.isEmpty = true
        · rw [if_pos hemp]
          exact hs sen (by simp)
        · rw [if_neg hemp]
          apply clean_stripWs
          exact cleanAppend current (' ' :: sen) h2
            (clean_cons_space sen (hs sen (by simp)))
            (Or.inr ⟨' ', sen, rfl, by decide⟩)

theorem fallbackOverlap_clean (ov : Nat) :
    ∀ (rest : List PChunk) (prev : List Char),
      hasSub pagePat prev = false →
      (∀ c ∈ rest, hasSub pagePat c.text = false) →
      ∀ c ∈ fallbackOverlap ov prev rest,
        hasSub pagePat c.text = false := by
  intro rest
  induction rest with
  | nil => intro prev _ _ c hc; simp [fallbackOverlap] at hc
  | cons x xs ih =>
    intro prev hp hrest c hc
    unfold fallbackOverlap at hc
    have ht : hasSub pagePat
        (lstripWs (takeRight ov prev) ++ ' ' :: x.text) = false := by
      apply cleanAppend
      · apply clean_within _ prev hp
        have hsuf : lstripWs (takeRight ov prev) <:+ prev :=
          (List.dropWhile_suffix _).trans (List.drop_suffix _ _)
        obtain ⟨w, hw⟩ := hsuf
        exact ⟨w, [], by simp [hw]⟩
      · exact clean_cons_space _ (hrest x (by simp))
      · exact Or.inr ⟨' ', x.text, rfl, by decide⟩
    rcases List.mem_cons.mp hc with rfl | hc'
    · exact ht
    · exact ih _ ht (fun q hq => hrest q (by simp [hq])) c hc'

theorem fallback_final_clean (ov : Nat) (chunks : List PChunk)
    (hb : ∀ d ∈ chunks, hasSub pagePat d.text = false) :
    ∀ c ∈ fallbackFinal ov chunks, hasSub pagePat c.text = false := by
  intro c hc
  unfold fallbackFinal at hc
  by_cases hcond : (0 < ov && 1 < chunks.length) = true
  · rw [if_pos hcond] at hc
    rcases chunks with _ | ⟨c0, rest⟩
    · simp at hc
    · rcases List.mem_cons.mp hc with h | h
      · subst h
        exact hb c (by simp)
      · exact fallbackOverlap_clean ov rest c0.text (hb c0 (by simp))
          (fun d hd => hb d (by simp [hd])) c h
  · rw [if_neg hcond] at hc
    exact hb c hc

/-- On well-formed text every chunk text of `_chunk_text_fallback` is free
of `[PAGE`. -/
theorem chunk_text_fallback_clean (cs ov : Nat) (text : List Char)
    (sp lo hi : Nat) (hct : CT lo hi text) :
    ∀ c ∈ chunk_text_fallback cs ov text sp,
      hasSub pagePat c.text = false := by
  have hclean0 : hasSub pagePat
      (stripWs (collapseWs (pageWalk 0 text).2)) = false :=
    clean_stripWs _ (clean_collapse _ (walkCT lo hi text hct 0).2)
  have hsen : ∀ x ∈ splitSentences
      (stripWs (collapseWs (pageWalk 0 text).2)),
      hasSub pagePat x = false :=
    fun x hx => clean_within x _ hclean0 (splitSentences_within _ x hx)
  have hacc := fallbackAccum_clean cs (pageWalk 0 text).1 sp
    (splitSentences (stripWs (collapseWs (pageWalk 0 text).2)))
    ([], [], 0) hsen (by simp) (by rfl)
  intro c hc
  unfold chunk_text_fallback at hc
  simp only [] at hc
  set r := fallbackAccum cs (pageWalk 0 text).1 sp ([], [], 0)
    (splitSentences (stripWs (collapseWs (pageWalk 0 text).2))) with hr
  have hbF : ∀ d ∈ (if r.2.1.isEmpty then r.1
      else r.1 ++ [PChunk.mk (stripWs r.2.1)
        (pickPage (pageWalk 0 text).1 sp r.2.2)]),
      hasSub pagePat d.text = false := by
    intro d hd
    by_cases hemp : r.2.1.isEmpty
    · rw [if_pos hemp] at hd
      exact hacc.1 d hd
    · rw [if_neg hemp] at hd
      rcases List.mem_append.mp hd with h | h
      · exact hacc.1 d h
      · simp only [List.mem_singleton] at h
        subst h
        exact clean_stripWs _ hacc.2
  exact fallback_final_clean ov
    (if r.2.1.isEmpty then r.1
      else r.1 ++ [PChunk.mk (stripWs r.2.1)
        (pickPage (pageWalk 0 text).1 sp r.2.2)]) hbF c hc

/-- The canonical section names the accumulator can ever use as keys. -/
def sectionNames : List (List Char) :=
  "preamble".toList :: section_aliases.map Prod.fst

theorem scanVariants_key (c : List Char) (vs : List (List Char))
    (lt : List Char) (r : List Char × List Char)
    (h : scanVariants c vs lt = some r) : r.1 = c := by
  induction vs with
  | nil => simp [scanVariants] at h
  | cons v rest ih =>
    unfold scanVariants at h
    rcases h1 : case1 v lt with _ | x <;> rw [h1] at h
    · rcases h2 : case2 v lt with _ | x <;> rw [h2] at h
      · exact ih h
      · simp only [Option.some.injEq] at h
        rw [← h]
    · simp only [Option.some.injEq] at h
      rw [← h]

theorem scanTable_key :
    ∀ (table : List (List Char × List (List Char))) (lt : List Char)
      (r : List Char × List Char),
      scanTable table lt = some r → r.1 ∈ table.map Prod.fst := by
  intro table
  induction table with
  | nil => intro lt r h; simp [scanTable] at h
  | cons cv rest ih =>
    intro lt r h
    obtain ⟨c, vs⟩ := cv
    unfold scanTable at h
    rcases h1 : scanVariants c vs lt with _ | x <;> rw [h1] at h
    · exact List.mem_cons_of_mem _ (ih lt r h)
    · simp only [Option.some.injEq] at h
      subst h
      have h2 := scanVariants_key c vs lt x h1
      rw [List.map_cons]
      rw [h2]
      simp

theorem detect_key (s : List Char) (fs m : ℚ) (tok : List Char)
    (h : (detect_header_with_content s fs m).1 = some tok) :
    tok ∈ section_aliases.map Prod.fst := by
  unfold detect_header_with_content at h
  by_cases he : s.isEmpty = true
  · rw [if_pos he] at h
    simp at h
  · rw [if_neg he] at h
    by_cases hsk : hasSkipToken (lowerStr s) = true
    · rw [if_pos hsk] at h
      simp at h
    · rw [if_neg hsk] at h
      rcases hst : scanTable section_aliases s with _ | cr <;> rw [hst] at h
      · simp at h
      · obtain ⟨c, r⟩ := cr
        simp only [Option.some.injEq] at h
        have h2 := scanTable_key section_aliases s (c, r) hst
        subst h
        simpa using h2

theorem stripWs_pre (m : List Char) :
    ∃ t, stripWs m ++ t = m.dropWhile pyWs := by
  unfold stripWs
  obtain ⟨v, hv⟩ :=
    List.dropWhile_suffix (l := (m.dropWhile pyWs).reverse) pyWs
  refine ⟨v.reverse, ?_⟩
  have h3 := congrArg List.reverse hv
  simp only [List.reverse_append, List.reverse_reverse] at h3
  exact h3

theorem stripWs_head_nws (m : List Char) (h : stripWs m ≠ []) :
    ∃ d r, stripWs m = d :: r ∧ pyWs d = false := by
  cases hq : stripWs m with
  | nil => exact absurd hq h
  | cons d r =>
    refine ⟨d, r, rfl, ?_⟩
    obtain ⟨t, ht⟩ := stripWs_pre m
    rw [hq] at ht
    have h5 : (m.dropWhile pyWs).head? = some d := by
      rw [← ht]
      rfl
    have h6 := List.head?_dropWhile_not pyWs m
    rw [h5] at h6
    exact h6

theorem stripWs_last_nws (m : List Char) (h : stripWs m ≠ []) :
    ∃ d, (stripWs m).getLast? = some d ∧ pyWs d = false := by
  have hrev : (stripWs m).reverse
      = (m.dropWhile pyWs).reverse.dropWhile pyWs := by
    unfold stripWs
    rw [List.reverse_reverse]
  cases hq : (m.dropWhile pyWs).reverse.dropWhile pyWs with
  | nil =>
    exfalso
    apply h
    have := congrArg List.reverse hrev
    rw [List.reverse_reverse, hq] at this
    simpa using this
  | cons d r =>
    refine ⟨d, ?_, ?_⟩
    · rw [List.getLast?_eq_head?_reverse, hrev, hq]
      rfl
    · have h6 := List.head?_dropWhile_not pyWs (m.dropWhile pyWs).reverse
      rw [hq] at h6
      exact h6

/-- The invariant of the accumulation state after `m` pages of an
`N`-page document: every section has a canonical name, a start page in
range, and a buffer of marker-tagged clean stripped lines whose pages lie
between the section's start page and `N`. -/
def SecsOK (m N : Nat) (secs : List (List Char × SectionBuf)) : Prop :=
  ∀ nb ∈ secs, nb.1 ∈ sectionNames ∧ 1 ≤ nb.2.start_page ∧
    nb.2.start_page ≤ max 1 m ∧
    ∃ entries : List (Nat × List Char),
      nb.2.text = entries.map (fun pt => taggedLine pt.1 pt.2) ∧
      ∀ pt ∈ entries, EntryOK nb.2.start_page N pt

theorem SecsOK_mono (m m' N : Nat) (h : m ≤ m')
    (secs : List (List Char × SectionBuf)) (hs : SecsOK m N secs) :
    SecsOK m' N secs := by
  intro nb hnb
  obtain ⟨h1, h2, h3, h4⟩ := hs nb hnb
  exact ⟨h1, h2, le_trans h3 (by omega), h4⟩

theorem insertSec_inv (m N : Nat) (secs : List (List Char × SectionBuf))
    (hs : SecsOK m N secs) (k : List Char) (hk : k ∈ sectionNames)
    (page_no : Nat) (h1 : 1 ≤ page_no) (hm : page_no ≤ max 1 m) :
    SecsOK m N (insertSec secs k page_no) := by
  intro nb hnb
  unfold insertSec at hnb
  rcases List.mem_append.mp hnb with h | h
  · exact hs nb h
  · simp only [List.mem_singleton] at h
    subst h
    exact ⟨hk, h1, hm, [], rfl, fun pt hpt => absurd hpt (by simp)⟩

theorem appendSec_inv (N page_no : Nat)
    (secs : List (List Char × SectionBuf))
    (hs : SecsOK page_no N secs) (key : List Char) (text : List Char)
    (hp1 : 1 ≤ page_no) (hpN : page_no ≤ N)
    (hclean : hasSub pagePat text = false)
    (hhead : ∃ d r, text = d :: r ∧ pyWs d = false)
    (hlast : ∃ d, text.getLast? = some d ∧ pyWs d = false) :
    SecsOK page_no N (appendSec secs key (taggedLine page_no text)) := by
  intro nb hnb
  unfold appendSec at hnb
  obtain ⟨ob, hob, hmap⟩ := List.mem_map.mp hnb
  obtain ⟨hn1, hn2, hn3, entries, hent, hEok⟩ := hs ob hob
  by_cases hkey : ob.1 = key
  · rw [if_pos hkey] at hmap
    subst hmap
    refine ⟨hn1, hn2, hn3, entries ++ [(page_no, text)], ?_, ?_⟩
    · simp [hent]
    · intro pt hpt
      rcases List.mem_append.mp hpt with h | h
      · exact hEok pt h
      · simp only [List.mem_singleton] at h
        subst h
        have hsp : ob.2.start_page ≤ page_no := by
          have : max 1 page_no = page_no := by omega
          omega
        exact ⟨hp1, hsp, hpN, hclean, hhead, hlast⟩
  · rw [if_neg hkey] at hmap
    subst hmap
    exact ⟨hn1, hn2, hn3, entries, hent, hEok⟩

/-- No merged, stripped line of the document contains `[PAGE`. -/
def CleanDoc (doc : DocRec) : Prop :=
  ∀ p ∈ doc, ∀ b ∈ p, ∀ l ∈ b,
    hasSub pagePat (stripWs (merge_spans l).1) = false

theorem processLine_inv (N page_no : Nat) (hp1 : 1 ≤ page_no)
    (hpN : page_no ≤ N) (med : ℚ) (st : AccState) (spans : List Span)
    (hclean : hasSub pagePat (stripWs (merge_spans spans).1) = false)
    (hcur : st.current ∈ sectionNames)
    (hsecs : SecsOK page_no N st.sections) :
    (processLine page_no med st spans).current ∈ sectionNames ∧
    SecsOK page_no N (processLine page_no med st spans).sections := by
  by_cases hsp : spans.isEmpty = true
  · have hid : processLine page_no med st spans = st := by
      unfold processLine
      rw [if_pos hsp]
    rw [hid]
    exact ⟨hcur, hsecs⟩
  · by_cases hte : (stripWs (merge_spans spans).1).isEmpty = true
    · have hid : processLine page_no med st spans = st := by
        unfold processLine
        rw [if_neg hsp]
        rw [if_pos hte]
      rw [hid]
      exact ⟨hcur, hsecs⟩
    · have hne : stripWs (merge_spans spans).1 ≠ [] := by simpa using hte
      have hh := stripWs_head_nws _ hne
      have hl := stripWs_last_nws _ hne
      rcases hdet : (detect_header_with_content
          (stripWs (merge_spans spans).1) (merge_spans spans).2 med).1
        with _ | tok
      · by_cases hfm : (st.current = "preamble".toList
            && is_front_matter_line (stripWs (merge_spans spans).1)) = true
        · have hid : processLine page_no med st spans
              = ⟨appendSec st.sections "preamble".toList
                  (taggedLine page_no (stripWs (merge_spans spans).1)),
                 st.current,
                 st.extracted + (stripWs (merge_spans spans).1).length⟩ := by
            unfold processLine
            rw [if_neg hsp, if_neg hte]
            simp only [hdet]
            rw [if_pos hfm]
          rw [hid]
          exact ⟨hcur, appendSec_inv N page_no st.sections hsecs _ _
            hp1 hpN hclean hh hl⟩
        · have hid : processLine page_no med st spans
              = ⟨appendSec
                  (if hasKey st.sections st.current then st.sections
                   else insertSec st.sections st.current page_no)
                  st.current
                  (taggedLine page_no (stripWs (merge_spans spans).1)),
                 st.current,
                 st.extracted + (stripWs (merge_spans spans).1).length⟩ := by
            unfold processLine
            rw [if_neg hsp, if_neg hte]
            simp only [hdet]
            rw [if_neg hfm]
          rw [hid]
          refine ⟨hcur, appendSec_inv N page_no _ ?_ _ _
            hp1 hpN hclean hh hl⟩
          by_cases hk : hasKey st.sections st.current = true
          · rw [if_pos hk]
            exact hsecs
          · rw [if_neg hk]
            exact insertSec_inv page_no N st.sections hsecs st.current hcur
              page_no hp1 (by omega)
      · have htok : tok ∈ sectionNames :=
          List.mem_cons_of_mem _ (detect_key _ _ _ tok hdet)
        have hid : processLine page_no med st spans
            = ⟨appendSec
                (if hasKey st.sections tok then st.sections
                 else insertSec st.sections tok page_no)
                tok (taggedLine page_no (stripWs (merge_spans spans).1)),
               tok,
               st.extracted + (stripWs (merge_spans spans).1).length⟩ := by
          unfold processLine
          rw [if_neg hsp, if_neg hte]
          simp only [hdet]
        rw [hid]
        refine ⟨htok, appendSec_inv N page_no _ ?_ _ _
          hp1 hpN hclean hh hl⟩
        by_cases hk : hasKey st.sections tok = true
        · rw [if_pos hk]
          exact hsecs
        · rw [if_neg hk]
          exact insertSec_inv page_no N st.sections hsecs tok htok
            page_no hp1 (by omega)

theorem processPage_inv (N page_no : Nat) (hp1 : 1 ≤ page_no)
    (hpN : page_no ≤ N) (st : AccState) (p : PageRec)
    (hclean : ∀ l ∈ p.flatten,
      hasSub pagePat (stripWs (merge_spans l).1) = false)
    (hcur : st.current ∈ sectionNames)
    (hsecs : SecsOK page_no N st.sections) :
    (processPage page_no st p).current ∈ sectionNames ∧
    SecsOK page_no N (processPage page_no st p).sections := by
  refine foldl_inv
    (processLine page_no
      (if (pageSizes p).isEmpty then 0 else median (pageSizes p)))
    (fun s => s.current ∈ sectionNames ∧ SecsOK page_no N s.sections)
    p.flatten ?_ st ⟨hcur, hsecs⟩
  intro acc l hl hacc
  exact processLine_inv N page_no hp1 hpN _ acc l (hclean l hl)
    hacc.1 hacc.2

theorem pages_fold_inv (N : Nat) :
    ∀ (l : List PageRec) (k : Nat) (st : AccState),
      k + l.length ≤ N →
      (∀ p ∈ l, ∀ ln ∈ p.flatten,
        hasSub pagePat (stripWs (merge_spans ln).1) = false) →
      st.current ∈ sectionNames →
      SecsOK k N st.sections →
      ((l.enumFrom k).foldl
        (fun st pi => processPage (pi.1 + 1) st pi.2) st).current
          ∈ sectionNames ∧
      SecsOK (k + l.length) N
        ((l.enumFrom k).foldl
          (fun st pi => processPage (pi.1 + 1) st pi.2) st).sections := by
  intro l
  induction l with
  | nil =>
    intro k st hN hcl hcur hsecs
    simp only [List.enumFrom_nil, List.foldl_nil, List.length_nil,
      Nat.add_zero]
    exact ⟨hcur, hsecs⟩
  | cons p rest ihl =>
    intro k st hN hcl hcur hsecs
    rw [List.enumFrom_cons, List.foldl_cons]
    simp only [List.length_cons] at hN
    have hstep := processPage_inv N (k + 1) (by omega) (by omega) st p
      (hcl p (by simp)) hcur (SecsOK_mono k (k + 1) N (by omega) _ hsecs)
    have hres := ihl (k + 1) (processPage (k + 1) st p) (by omega)
      (fun q hq => hcl q (by simp [hq])) hstep.1 hstep.2
    refine ⟨hres.1, ?_⟩
    have harith : k + (p :: rest).length = (k + 1) + rest.length := by
      simp only [List.length_cons]
      omega
    rw [harith]
    exact hres.2

theorem accumulate_inv (doc : DocRec) (hcl : CleanDoc doc) :
    (accumulate doc).current ∈ sectionNames ∧
    SecsOK doc.length doc.length (accumulate doc).sections := by
  have h0 := pages_fold_inv doc.length doc 0
    ⟨[("preamble".toList, ⟨[], 1⟩)], "preamble".toList, 0⟩
    (by omega) ?_ ?_ ?_
  · have harith : (0 : Nat) + doc.length = doc.length := by omega
    rw [harith] at h0
    exact h0
  · intro p hp ln hln
    obtain ⟨b, hb, hlb⟩ := List.mem_flatten.mp hln
    exact hcl p hp b hb ln hlb
  · exact List.mem_cons_self _ _
  · intro nb hnb
    simp only [List.mem_singleton] at hnb
    subst hnb
    refine ⟨List.mem_cons_self _ _, le_rfl,
      by show (1 : Nat) ≤ max 1 0; decide, [], rfl, ?_⟩
    intro pt hpt
    exact absurd hpt (by simp)

theorem asmStep_mem (cs ov : Nat)
    (acc : List (List Char × SectionOut) × List (List Char × List Char) × Nat)
    (nc : List Char × SectionBuf) (ns : List Char × SectionOut)
    (hns : ns ∈ (asmStep cs ov acc nc).1) :
    ns ∈ acc.1 ∨
      (ns.1 = nc.1 ∧ ns.2.start_page = nc.2.start_page ∧
       ns.2.chunks_with_pages
         = some (chunk_text cs ov
             (stripWs (collapseWs (joinSpace nc.2.text)))
             nc.2.start_page) ∧
       ns.2.chunks
         = ((chunk_text cs ov
             (stripWs (collapseWs (joinSpace nc.2.text)))
             nc.2.start_page).map PChunk.text).map ChunkEntry.s) := by
  simp only [asmStep] at hns
  split at hns
  · exact Or.inl hns
  · rcases List.mem_append.mp hns with h | h
    · exact Or.inl h
    · simp only [List.mem_singleton] at h
      refine Or.inr ⟨?_, ?_, ?_, ?_⟩ <;> rw [h]

theorem asmStep_uncat_mem (cs ov : Nat)
    (acc : List (List Char × SectionOut) × List (List Char × List Char) × Nat)
    (nc : List Char × SectionBuf) (nt : List Char × List Char)
    (hnt : nt ∈ (asmStep cs ov acc nc).2.1) :
    nt ∈ acc.2.1 ∨ (nt.1 = nc.1 ∧ nt.2 = joinSpace nc.2.text) := by
  simp only [asmStep] at hnt
  split at hnt
  · rcases List.mem_append.mp hnt with h | h
    · exact Or.inl h
    · simp only [List.mem_singleton] at h
      refine Or.inr ⟨?_, ?_⟩ <;> rw [h]
  · exact Or.inl hnt

theorem asm_sections_shape (cs ov : Nat)
    (secs : List (List Char × SectionBuf)) :
    ∀ ns ∈ (assembleSections cs ov secs).1,
      ∃ nb ∈ secs, ns.1 = nb.1 ∧ ns.2.start_page = nb.2.start_page ∧
        ns.2.chunks_with_pages
          = some (chunk_text cs ov
              (stripWs (collapseWs (joinSpace nb.2.text)))
              nb.2.start_page) ∧
        ns.2.chunks
          = ((chunk_text cs ov
              (stripWs (collapseWs (joinSpace nb.2.text)))
              nb.2.start_page).map PChunk.text).map ChunkEntry.s := by
  unfold assembleSections
  refine foldl_inv (asmStep cs ov)
    (fun acc => ∀ ns ∈ acc.1,
      ∃ nb ∈ secs, ns.1 = nb.1 ∧ ns.2.start_page = nb.2.start_page ∧
        ns.2.chunks_with_pages
          = some (chunk_text cs ov
              (stripWs (collapseWs (joinSpace nb.2.text)))
              nb.2.start_page) ∧
        ns.2.chunks
          = ((chunk_text cs ov
              (stripWs (collapseWs (joinSpace nb.2.text)))
              nb.2.start_page).map PChunk.text).map ChunkEntry.s)
    secs ?_ ([], [], 0) ?_
  · intro acc nc hnc hacc ns hns
    rcases asmStep_mem cs ov acc nc ns hns with h | h
    · exact hacc ns h
    · exact ⟨nc, hnc, h⟩
  · intro ns hns
    simp at hns

theorem asm_uncat_shape (cs ov : Nat)
    (secs : List (List Char × SectionBuf)) :
    ∀ nt ∈ (assembleSections cs ov secs).2.1,
      ∃ nb ∈ secs, nt.1 = nb.1 ∧ nt.2 = joinSpace nb.2.text := by
  unfold assembleSections
  refine foldl_inv (asmStep cs ov)
    (fun acc => ∀ nt ∈ acc.2.1,
      ∃ nb ∈ secs, nt.1 = nb.1 ∧ nt.2 = joinSpace nb.2.text)
    secs ?_ ([], [], 0) ?_
  · intro acc nc hnc hacc nt hnt
    rcases asmStep_uncat_mem cs ov acc nc nt hnt with h | h
    · exact hacc nt h
    · exact ⟨nc, hnc, h⟩
  · intro nt hnt
    simp at hnt

theorem addUnknown_mem (cs ov : Nat)
    (processed : List (List Char × SectionOut))
    (uncat : List (List Char × List Char)) (ns : List Char × SectionOut)
    (hns : ns ∈ addUnknown cs ov processed uncat) :
    ns ∈ processed ∨
      (ns.2.chunks_with_pages = none ∧
       ns.2.chunks = (chunk_text cs ov
         (joinSpace (uncat.map (fun nt =>
           "[SECTION: ".toList ++ nt.1 ++ "] ".toList ++ nt.2))) 1).map
           ChunkEntry.d) := by
  simp only [addUnknown] at hns
  split at hns
  · exact Or.inl hns
  · split at hns
    · rcases List.mem_append.mp hns with h | h
      · exact Or.inl h
      · simp only [List.mem_singleton] at h
        refine Or.inr ⟨?_, ?_⟩ <;> rw [h]
    · exact Or.inl hns

theorem enumFrom_snd_mem {α : Type} :
    ∀ (l : List α) (k : Nat) (x : Nat × α),
      x ∈ l.enumFrom k → x.2 ∈ l := by
  intro l
  induction l with
  | nil => intro k x hx; simp at hx
  | cons a rest ih =>
    intro k x hx
    rw [List.enumFrom_cons] at hx
    rcases List.mem_cons.mp hx with rfl | hx'
    · simp
    · exact List.mem_cons_of_mem _ (ih (k + 1) x hx')

/-- Every flattened chunk of `get_chunks_with_metadata` carries either the
text of a `chunks_with_pages` entry or an entry of a section's `chunks`
list. -/
theorem gcwm_mem (res : ProcResult) :
    ∀ fc ∈ get_chunks_with_metadata res,
      ∃ ns ∈ res.sections,
        (∃ c ∈ ns.2.chunks_with_pages.getD [],
          fc.text = ChunkEntry.s c.text) ∨
        fc.text ∈ ns.2.chunks := by
  unfold get_chunks_with_metadata
  have h0 := foldl_inv
    (fun (acc : List FlatChunk × Nat) ns =>
      let (out, gid) := acc
      let (section_name, sec) := ns
      let cwp := sec.chunks_with_pages.getD []
      if !cwp.isEmpty then
        let items := cwp.enum.map (fun ci =>
          FlatChunk.mk (ChunkEntry.s ci.2.text)
            ⟨section_name, ci.2.page, sec.start_page, ci.1, gid + ci.1,
              cwp.length, res.metadata.title, res.metadata.author,
              ci.2.text.length⟩)
        (out ++ items, gid + cwp.length)
      else
        let items := sec.chunks.enum.map (fun ci =>
          FlatChunk.mk ci.2
            ⟨section_name, sec.start_page, sec.start_page, ci.1, gid + ci.1,
              sec.chunks.length, res.metadata.title, res.metadata.author,
              entryLen ci.2⟩)
        (out ++ items, gid + sec.chunks.length))
    (fun acc => ∀ fc ∈ acc.1,
      ∃ ns ∈ res.sections,
        (∃ c ∈ ns.2.chunks_with_pages.getD [],
          fc.text = ChunkEntry.s c.text) ∨
        fc.text ∈ ns.2.chunks)
    res.sections ?_ ([], 0) (by intro fc hfc; simp at hfc)
  · exact fun fc hfc => h0 fc hfc
  · intro acc ns hns hacc fc hfc
    obtain ⟨out, gid⟩ := acc
    obtain ⟨section_name, sec⟩ := ns
    simp only [] at hfc
    by_cases hcw : (!(sec.chunks_with_pages.getD []).isEmpty) = true
    · rw [if_pos hcw] at hfc
      rcases List.mem_append.mp hfc with h | h
      · exact hacc fc h
      · obtain ⟨ci, hci, hfc2⟩ := List.mem_map.mp h
        refine ⟨(section_name, sec), hns, Or.inl ⟨ci.2, ?_, ?_⟩⟩
        · exact enumFrom_snd_mem _ 0 ci hci
        · rw [← hfc2]
    · rw [if_neg hcw] at hfc
      rcases List.mem_append.mp hfc with h | h
      · exact hacc fc h
      · obtain ⟨ci, hci, hfc2⟩ := List.mem_map.mp h
        refine ⟨(section_name, sec), hns, Or.inr ?_⟩
        rw [← hfc2]
        exact enumFrom_snd_mem _ 0 ci hci

theorem clean_short (s : List Char) (h : s.length < 5) :
    hasSub pagePat s = false := by
  induction s with
  | nil => rfl
  | cons c cs ih =>
    unfold hasSub
    have h1 : begins pagePat (c :: cs) = false := by
      cases hq : begins pagePat (c :: cs)
      · rfl
      · have h2 := begins_length_le _ _ hq
        have h3 : pagePat.length = 5 := rfl
        simp only [List.length_cons] at h2
        simp only [List.length_cons] at h
        omega
    rw [h1, ih ?_]
    · rfl
    · simp only [List.length_cons] at h
      omega

instance (doc : DocRec) : Decidable (CleanDoc doc) := by
  unfold CleanDoc
  infer_instance

/-- Prepending a clean stretch to well-formed text keeps it well-formed,
provided the boundary cannot complete a `[PAGE` occurrence. -/
theorem CT_prepend (lo hi : Nat) (u : List Char)
    (hu : hasSub pagePat u = false) :
    ∀ b, CT lo hi b →
      (b = [] ∨ ∃ h r, b = h :: r ∧ (h = '[' ∨ h = ' ')) →
      CT lo hi (u ++ b) := by
  intro b hb
  induction hb with
  | base u' hu' =>
    intro hh
    apply CT.base
    apply cleanAppend u u' hu hu'
    rcases hh with rfl | ⟨h, r, hhr, hor⟩
    · exact Or.inl rfl
    · exact Or.inr ⟨h, r, hhr, by rcases hor with rfl | rfl <;> decide⟩
  | step u' hu' p hp hlo hhi rest hr hh' ih =>
    intro hh
    rw [show u ++ (u' ++ (markerChars p ++ rest))
      = (u ++ u') ++ (markerChars p ++ rest)
      from (List.append_assoc u u' _).symm]
    refine CT.step (u ++ u') ?_ p hp hlo hhi rest hr hh'
    apply cleanAppend u u' hu hu'
    cases hu'' : u' with
    | nil => exact Or.inl rfl
    | cons h r =>
      refine Or.inr ⟨h, r, rfl, ?_⟩
      rcases hh with habs | ⟨h2, r2, hhr2, hor⟩
      · rw [hu''] at habs
        simp at habs
      · rw [hu''] at hhr2
        have hh2 : h2 = h := by
          have h3 := congrArg List.head? hhr2
          simp at h3
          exact h3.symm
        subst hh2
        rcases hor with rfl | rfl <;> decide

/-- Appending well-formed text that starts with a space (or is empty)
keeps well-formedness. -/
theorem CT_append_space (lo hi : Nat) :
    ∀ a, CT lo hi a → ∀ b, CT lo hi b →
      (b = [] ∨ b.head? = some ' ') → CT lo hi (a ++ b) := by
  intro a ha
  induction ha with
  | base u hu =>
    intro b hb hh
    apply CT_prepend lo hi u hu b hb
    rcases hh with rfl | hh
    · exact Or.inl rfl
    · cases b with
      | nil => exact Or.inl rfl
      | cons h r =>
        simp only [List.head?_cons, Option.some.injEq] at hh
        subst hh
        exact Or.inr ⟨' ', r, rfl, Or.inr rfl⟩
  | step u hu p hp hlo hhi rest hr hh' ih =>
    intro b hb hh
    rw [show (u ++ (markerChars p ++ rest)) ++ b
      = u ++ (markerChars p ++ (rest ++ b))
      from by simp [List.append_assoc]]
    refine CT.step u hu p hp hlo hhi (rest ++ b) (ih b hb hh) ?_
    rcases hh' with rfl | hh'
    · simpa using hh
    · cases rest with
      | nil => simpa using hh
      | cons x xs =>
        right
        simp only [List.head?_cons, Option.some.injEq] at hh'
        simp [hh']

/-- Joining well-formed pieces that each start with `[` with single spaces
keeps well-formedness. -/
theorem CT_joinSpace (lo hi : Nat) :
    ∀ ps : List (List Char),
      (∀ x ∈ ps, CT lo hi x ∧ ∃ r, x = '[' :: r) →
      CT lo hi (joinSpace ps) := by
  intro ps
  induction ps with
  | nil => intro _; exact CT.base [] rfl
  | cons x rest ih =>
    intro h
    cases rest with
    | nil =>
      have hx : joinSpace [x] = x := by simp [joinSpace]
      rw [hx]
      exact (h x (by simp)).1
    | cons y rest' =>
      rw [joinSpace_cons₂]
      have hJ := ih (fun q hq => h q (by simp [hq]))
      have hhead : joinSpace (y :: rest') = [] ∨
          ∃ h2 r2, joinSpace (y :: rest') = h2 :: r2 ∧
            (h2 = '[' ∨ h2 = ' ') := by
        obtain ⟨r, hyr⟩ := (h y (by simp)).2
        cases rest' with
        | nil =>
          right
          refine ⟨'[', r, ?_, Or.inl rfl⟩
          rw [show joinSpace [y] = y from by simp [joinSpace], hyr]
        | cons z rest'' =>
          right
          refine ⟨'[', r ++ (' ' :: joinSpace (z :: rest'')), ?_, Or.inl rfl⟩
          rw [joinSpace_cons₂, hyr]
          rfl
      refine CT_append_space lo hi x (h x (by simp)).1
        (' ' :: joinSpace (y :: rest')) ?_ (Or.inr rfl)
      exact CT_prepend lo hi [' '] (by decide) _ hJ hhead

/-- The `[SECTION: name] ` prefixes used on the uncategorized path are
clean for every canonical section name. -/
theorem gClean : ∀ n ∈ sectionNames,
    hasSub pagePat ("[SECTION: ".toList ++ n ++ "] ".toList) = false := by
  decide

/-- Well-formedness of the uncategorized-content blob: section-name
prefixes glued to the raw marker-bearing buffers of the dropped
sections. -/
theorem uncat_CT (N : Nat) (uncat : List (List Char × List Char))
    (hu : ∀ nt ∈ uncat, nt.1 ∈ sectionNames ∧
      ∃ entries : List (Nat × List Char),
        nt.2 = joinSpace (entries.map (fun pt => taggedLine pt.1 pt.2)) ∧
        ∀ pt ∈ entries, 1 ≤ pt.1 ∧ pt.1 ≤ N ∧
          hasSub pagePat pt.2 = false) :
    CT 1 N (joinSpace (uncat.map (fun nt =>
      "[SECTION: ".toList ++ nt.1 ++ "] ".toList ++ nt.2))) := by
  apply CT_joinSpace
  intro x hx
  obtain ⟨nt, hnt, rfl⟩ := List.mem_map.mp hx
  obtain ⟨hname, entries, hj, hent⟩ := hu nt hnt
  constructor
  · rw [hj, joinSpace_tagged]
    apply CT_render 1 N (padSegs entries) ?_ _ ?_
    · exact padSegs_conds 1 N entries (fun q hq =>
        ⟨(hent q hq).1, (hent q hq).1, (hent q hq).2.1, (hent q hq).2.2⟩)
    · exact gClean nt.1 hname
  · refine ⟨"SECTION: ".toList ++ nt.1 ++ "] ".toList ++ nt.2, ?_⟩
    rw [show ("[SECTION: ".toList : List Char)
      = '[' :: "SECTION: ".toList from rfl]
    simp [List.cons_append, List.append_assoc]

/-- The text carried by a chunk value: the string itself, or the dict's
text field. -/
def entryText : ChunkEntry → List Char
  | .s t => t
  | .d c => c.text

theorem C4_sections (cs ov : Nat) (title author : List Char) (doc : DocRec)
    (hclean : CleanDoc doc) :
    ∀ ns ∈ (process_pdf_sync cs ov title author doc).sections,
      (∀ c ∈ ns.2.chunks_with_pages.getD [],
        hasSub pagePat c.text = false) ∧
      (∀ e ∈ ns.2.chunks, hasSub pagePat (entryText e) = false) := by
  intro ns hns
  have hsecs : (process_pdf_sync cs ov title author doc).sections
      = addUnknown cs ov
          (assembleSections cs ov (accumulate doc).sections).1
          (assembleSections cs ov (accumulate doc).sections).2.1 := rfl
  rw [hsecs] at hns
  obtain ⟨hcur, hSecs⟩ := accumulate_inv doc hclean
  rcases addUnknown_mem cs ov _ _ ns hns with h | h
  · obtain ⟨nb, hnb, hname, hsp, hcwp, hchunks⟩ :=
      asm_sections_shape cs ov _ ns h
    obtain ⟨hname2, hsp1, hspN, entries, hent, hEok⟩ := hSecs nb hnb
    have hCT := sectionText_CT nb.2.start_page doc.length entries hEok
    rw [← hent] at hCT
    constructor
    · intro c hc
      rw [hcwp] at hc
      simp only [Option.getD_some] at hc
      exact chunk_text_clean cs ov _ nb.2.start_page _ _ hCT c hc
    · intro e he
      rw [hchunks] at he
      obtain ⟨t, ht, rfl⟩ := List.mem_map.mp he
      obtain ⟨c, hc, rfl⟩ := List.mem_map.mp ht
      exact chunk_text_clean cs ov _ nb.2.start_page _ _ hCT c hc
  · constructor
    · intro c hc
      rw [h.1] at hc
      simp at hc
    · intro e he
      rw [h.2] at he
      obtain ⟨c, hc, rfl⟩ := List.mem_map.mp he
      have hCTu : CT 1 doc.length
          (joinSpace (((assembleSections cs ov
            (accumulate doc).sections).2.1).map (fun nt =>
            "[SECTION: ".toList ++ nt.1 ++ "] ".toList ++ nt.2))) := by
        apply uncat_CT
        intro nt hnt
        obtain ⟨nb, hnb, hname, hjoin⟩ :=
          asm_uncat_shape cs ov _ nt hnt
        obtain ⟨hname2, hsp1, hspN, entries, hent, hEok⟩ := hSecs nb hnb
        rw [hname]
        refine ⟨hname2, entries, by rw [hjoin, hent], ?_⟩
        intro pt hpt
        have hE := hEok pt hpt
        exact ⟨hE.1, hE.2.2.1, hE.2.2.2.1⟩
      exact chunk_text_clean cs ov _ 1 _ _ hCTu c hc

/-- C8 (amended): on documents with at least one page in which no line's
text contains `[PAGE`, every chunk of every emitted section is attributed
a page between the section's `start_page` and the document's page count.
The well-formedness hypothesis is necessary: a line that embeds a fake
marker (the counterexample) escapes the bound. -/
theorem C8_amended (cs ov : Nat) (title author : List Char) (doc : DocRec)
    (hpages : 0 < doc.length) (hclean : CleanDoc doc) :
    ∀ ns ∈ (process_pdf_sync cs ov title author doc).sections,
      ∀ c ∈ ns.2.chunks_with_pages.getD [],
        ns.2.start_page ≤ c.page ∧
        c.page ≤ (process_pdf_sync cs ov title author doc).metadata.page_count
    := by
  intro ns hns c hc
  have hsecs : (process_pdf_sync cs ov title author doc).sections
      = addUnknown cs ov
          (assembleSections cs ov (accumulate doc).sections).1
          (assembleSections cs ov (accumulate doc).sections).2.1 := rfl
  rw [hsecs] at hns
  rcases addUnknown_mem cs ov _ _ ns hns with h | h
  · obtain ⟨nb, hnb, hname, hsp, hcwp, hchunks⟩ :=
      asm_sections_shape cs ov _ ns h
    rw [hcwp] at hc
    simp only [Option.getD_some] at hc
    obtain ⟨hcur, hSecs⟩ := accumulate_inv doc hclean
    obtain ⟨hname2, hsp1, hspN, entries, hent, hEok⟩ := hSecs nb hnb
    have hspN' : nb.2.start_page ≤ doc.length := by
      have hmax : max 1 doc.length = doc.length := by omega
      omega
    have hCT := sectionText_CT nb.2.start_page doc.length entries hEok
    rw [← hent] at hCT
    have hbound := chunk_text_pages cs ov _ nb.2.start_page doc.length
      hspN' hCT c hc
    have hpc : (process_pdf_sync cs ov title author doc).metadata.page_count
        = doc.length := rfl
    rw [hsp, hpc]
    exact hbound
  · rw [h.1] at hc
    simp at hc

theorem C8_amended_witness :
    (0 < c7doc.length ∧ CleanDoc c7doc) ∧
    ∀ ns ∈ (process_pdf_sync 1000 200 [] [] c7doc).sections,
      ∀ c ∈ ns.2.chunks_with_pages.getD [],
        ns.2.start_page ≤ c.page ∧
        c.page ≤ (process_pdf_sync 1000 200 [] [] c7doc).metadata.page_count
    :=
  ⟨⟨by decide, by decide⟩,
   C8_amended 1000 200 [] [] c7doc (by decide) (by decide)⟩

/-- C4 (amended): the no-leak guarantee holds exactly for documents none
of whose extracted lines contains `[PAGE` themselves: then no emitted
chunk text — in any section's `chunks` (plain or dict-valued),
`chunks_with_pages`, or the flattened `get_chunks_with_metadata` output,
and likewise on the fallback splitter path applied to the same prepared
section texts — contains the substring `[PAGE`.  The hypothesis is
necessary: the counterexample's line carries a bare `[PAGE leak` that no
marker-removal pass deletes. -/
theorem C4_amended (cs ov : Nat) (title author : List Char) (doc : DocRec)
    (hclean : CleanDoc doc) :
    (∀ ns ∈ (process_pdf_sync cs ov title author doc).sections,
      (∀ c ∈ ns.2.chunks_with_pages.getD [],
        hasSub pagePat c.text = false) ∧
      (∀ e ∈ ns.2.chunks, hasSub pagePat (entryText e) = false)) ∧
    (∀ fc ∈ get_chunks_with_metadata
        (process_pdf_sync cs ov title author doc),
      hasSub pagePat (entryText fc.text) = false) ∧
    (∀ nb ∈ (accumulate doc).sections,
      ∀ c ∈ chunk_text_fallback cs ov
        (stripWs (collapseWs (joinSpace nb.2.text))) nb.2.start_page,
        hasSub pagePat c.text = false) := by
  refine ⟨C4_sections cs ov title author doc hclean, ?_, ?_⟩
  · intro fc hfc
    obtain ⟨ns, hns, hcase⟩ := gcwm_mem _ fc hfc
    rcases hcase with ⟨c, hc, heq⟩ | hmem
    · rw [heq]
      exact (C4_sections cs ov title author doc hclean ns hns).1 c hc
    · exact (C4_sections cs ov title author doc hclean ns hns).2 _ hmem
  · intro nb hnb c hc
    obtain ⟨hcur, hSecs⟩ := accumulate_inv doc hclean
    obtain ⟨hname2, hsp1, hspN, entries, hent, hEok⟩ := hSecs nb hnb
    have hCT := sectionText_CT nb.2.start_page doc.length entries hEok
    rw [← hent] at hCT
    exact chunk_text_fallback_clean cs ov _ nb.2.start_page _ _ hCT c hc

theorem C4_amended_witness :
    CleanDoc c7doc ∧
    ∀ ns ∈ (process_pdf_sync 1000 200 [] [] c7doc).sections,
      (∀ c ∈ ns.2.chunks_with_pages.getD [],
        hasSub pagePat c.text = false) ∧
      (∀ e ∈ ns.2.chunks, hasSub pagePat (entryText e) = false) :=
  ⟨by decide, (C4_amended 1000 200 [] [] c7doc (by decide)).1⟩

end DocProc
